import Mathlib

/-!
Verification development for the `qrake` geographic-weight calibration
module (`src/qrake.py` of the weighting repository).

The module computes, for a national microdata file, an n x m matrix `Q` of
weight shares (household i, area j) by an outer fixed-point loop (`qrake`)
that repeatedly calls a per-area Newton-Raphson raking calibrator (`rake`,
a port of the raking method of R's `sampling::calib`), validates the
returned multiplicative adjustment `g`, rescales columns of `Q`,
renormalizes rows, and evaluates two convergence metrics.

Numeric model.  The Python code computes with IEEE double precision.  We
embed its values as `FP`: exact rationals extended with `pinf`/`ninf`
(signed infinities) and `nan`.  Arithmetic on finite values is exact
rational arithmetic except that any result of magnitude at least
`2 ^ 1024` overflows to a signed infinity, the route by which the program
first produces non-finite values from finite data; infinities and `nan`
propagate as in IEEE arithmetic (`inf - inf = nan`, `0 * inf = nan`,
comparisons with `nan` are false, `np.max` propagates `nan`).  Rounding of
in-range results is not modelled; every property proved or refuted below
holds with margins that are many orders of magnitude wider than double
rounding error.  The transcendental kernel `np.exp` and the SVD-based
`np.linalg.pinv` are external library calls; the embeddings of `rake` and
`qrake` take them as explicit function parameters, instantiated where a
claim needs concrete runs.
-/

set_option exponentiation.threshold 1100

namespace QW

/-- A double-precision value: a finite rational, a signed infinity, or NaN. -/
inductive FP where
  | fin : ℚ → FP
  | pinf : FP
  | ninf : FP
  | nan : FP
deriving DecidableEq, Repr

/-- Smallest magnitude at which a finite double overflows to infinity.
(The power is taken in `ℕ`, whose exponentiation the kernel evaluates
directly.) -/
def OVERFLOW : ℚ := ((2 ^ 1024 : ℕ) : ℚ)

/-- Pack a rational into `FP`, overflowing to a signed infinity at `2^1024`. -/
def mkFin (q : ℚ) : FP :=
  if OVERFLOW ≤ q then .pinf else if q ≤ -OVERFLOW then .ninf else .fin q

/-- IEEE-style addition on the `FP` model. -/
def fpAdd : FP → FP → FP
  | .fin a, .fin b => mkFin (a + b)
  | .fin _, .pinf => .pinf
  | .fin _, .ninf => .ninf
  | .pinf, .fin _ => .pinf
  | .ninf, .fin _ => .ninf
  | .pinf, .pinf => .pinf
  | .ninf, .ninf => .ninf
  | .pinf, .ninf => .nan
  | .ninf, .pinf => .nan
  | .nan, _ => .nan
  | _, .nan => .nan

/-- IEEE-style negation on the `FP` model. -/
def fpNeg : FP → FP
  | .fin a => .fin (-a)
  | .pinf => .ninf
  | .ninf => .pinf
  | .nan => .nan

/-- IEEE-style subtraction on the `FP` model. -/
def fpSub (a b : FP) : FP := fpAdd a (fpNeg b)

/-- IEEE-style multiplication on the `FP` model (`0 * inf = nan`). -/
def fpMul : FP → FP → FP
  | .fin a, .fin b => mkFin (a * b)
  | .fin a, .pinf => if a = 0 then .nan else if 0 < a then .pinf else .ninf
  | .fin a, .ninf => if a = 0 then .nan else if 0 < a then .ninf else .pinf
  | .pinf, .fin b => if b = 0 then .nan else if 0 < b then .pinf else .ninf
  | .ninf, .fin b => if b = 0 then .nan else if 0 < b then .ninf else .pinf
  | .pinf, .pinf => .pinf
  | .pinf, .ninf => .ninf
  | .ninf, .pinf => .ninf
  | .ninf, .ninf => .pinf
  | .nan, _ => .nan
  | _, .nan => .nan

/-- IEEE-style division on the `FP` model (`x / 0` is a signed infinity for
`x ≠ 0`, `0 / 0 = nan`, `inf / inf = nan`; numpy only warns on these). -/
def fpDiv : FP → FP → FP
  | .fin a, .fin b =>
      if b = 0 then (if a = 0 then .nan else if 0 < a then .pinf else .ninf)
      else mkFin (a / b)
  | .fin _, .pinf => .fin 0
  | .fin _, .ninf => .fin 0
  | .pinf, .fin b => if 0 ≤ b then .pinf else .ninf
  | .ninf, .fin b => if 0 ≤ b then .ninf else .pinf
  | .pinf, .pinf => .nan
  | .pinf, .ninf => .nan
  | .ninf, .pinf => .nan
  | .ninf, .ninf => .nan
  | .nan, _ => .nan
  | _, .nan => .nan

/-- IEEE-style absolute value on the `FP` model. -/
def fpAbs : FP → FP
  | .fin a => .fin |a|
  | .pinf => .pinf
  | .ninf => .pinf
  | .nan => .nan

/-- `np.isnan` on one value. -/
def isnanB : FP → Bool
  | .nan => true
  | _ => false

/-- `np.isinf` on one value (false on NaN, as in numpy). -/
def isinfB : FP → Bool
  | .pinf => true
  | .ninf => true
  | _ => false

/-- Strict `<` comparison: false whenever either operand is NaN. -/
def fpLtB : FP → FP → Bool
  | .nan, _ => false
  | _, .nan => false
  | .ninf, .ninf => false
  | .ninf, _ => true
  | .fin _, .ninf => false
  | .fin a, .fin b => decide (a < b)
  | .fin _, .pinf => true
  | .pinf, _ => false

/-- `a > b` as the Python code writes it: `b < a` with NaN incomparable. -/
def fpGtB (a b : FP) : Bool := fpLtB b a

/-- Pairwise maximum as used by `np.max`: NaN propagates. -/
def fpMax2 (a b : FP) : FP :=
  if isnanB a || isnanB b then .nan else if fpLtB a b then b else a

/-- Sum of a vector of `FP` values in index order (`np.sum` / `.sum(axis=…)`). -/
def vsum (n : ℕ) (v : Fin n → FP) : FP :=
  ((List.finRange n).map v).foldl fpAdd (.fin 0)

/-- Maximum entry of a vector (`np.max` over a nonempty array; the `ninf`
seed is absorbed by the first comparison). -/
def vmax (n : ℕ) (v : Fin n → FP) : FP :=
  ((List.finRange n).map v).foldl fpMax2 .ninf

/-- `np.isnan(v).any() or np.isinf(v).any()` for a vector. -/
def anyNanInf (n : ℕ) (v : Fin n → FP) : Bool :=
  (List.finRange n).any fun i => isnanB (v i) || isinfB (v i)

/-- `np.isinf(v).any()` for a vector. -/
def anyInf (n : ℕ) (v : Fin n → FP) : Bool :=
  (List.finRange n).any fun i => isinfB (v i)

/-- True iff every entry equals floating-point zero; `g.any() == 0` in the
Python source is `True` exactly in this case (NaN entries are truthy). -/
def allZero (n : ℕ) (v : Fin n → FP) : Bool :=
  (List.finRange n).all fun i => v i = .fin 0

/-!
## `rake` — the per-area Newton-Raphson raking calibrator

`rake(Xs, d, total, q=1, objective=None)` is, per its own docstring, "a
direct translation of the raking code of the calib function in the R
sampling package".  `Xs` is the n x k covariate matrix (already
premultiplied by the national weights at the call site), `d` the initial
weight column, `total` the target vector.  It Newton-iterates on Lagrange
multipliers `lam`, recomputing `w1 = d * exp(Xs @ lam)` (the default
`q = 1` factor is the multiplicative identity on every `FP` value and is
elided), and returns the multiplicative adjustment `g = w1 / d`, or `None`
("no adjustment") on non-convergence.  `np.exp` and `np.linalg.pinv` are
external numeric kernels and enter as the parameters `expf` (on finite
arguments; infinities and NaN follow IEEE `exp`) and `pinvf`.
-/

/-- `np.exp` lifted to `FP`: the finite case is the external kernel,
`exp(inf) = inf`, `exp(-inf) = 0`, `exp(nan) = nan`. -/
def expFP (expf : ℚ → FP) : FP → FP
  | .fin q => expf q
  | .pinf => .pinf
  | .ninf => .fin 0
  | .nan => .nan

/-- `rake`: machine-epsilon constant `EPS1 = 1e-8` (the residual
tolerance; R calib uses 1e-6). -/
def RAKE_EPS1 : ℚ := 1 / 100000000

/-- `rake`: the iteration cap `max_iter = 10`. -/
def RAKE_MAX_ITER : ℕ := 10

/-- `w1 = d * np.exp(np.dot(Xs, lam) * q)` with the default `q = 1`. -/
def rakeNewW {nn kk : ℕ} (expf : ℚ → FP) (Xs : Fin nn → Fin kk → FP)
    (d : Fin nn → FP) (lam : Fin kk → FP) : Fin nn → FP :=
  fun i => fpMul (d i) (expFP expf (vsum kk fun c => fpMul (Xs i c) (lam c)))

/-- `phi = np.dot(Xs.T, w1) - total`. -/
def rakePhi {nn kk : ℕ} (Xs : Fin nn → Fin kk → FP) (w1 : Fin nn → FP)
    (total : Fin kk → FP) : Fin kk → FP :=
  fun c => fpSub (vsum nn fun i => fpMul (Xs i c) (w1 i)) (total c)

/-- `phiprim = np.dot((Xs * w1).T, Xs)`, the weighted Gram matrix. -/
def rakePhiprim {nn kk : ℕ} (Xs : Fin nn → Fin kk → FP) (w1 : Fin nn → FP) :
    Fin kk → Fin kk → FP :=
  fun a b => vsum nn fun i => fpMul (fpMul (Xs i a) (w1 i)) (Xs i b)

/-- `np.max(np.abs(tr - total) / total)` with `tr = np.inner(Xs.T, w1.T)`. -/
def rakeResid {nn kk : ℕ} (Xs : Fin nn → Fin kk → FP) (w1 : Fin nn → FP)
    (total : Fin kk → FP) : FP :=
  vmax kk fun c =>
    fpDiv (fpAbs (fpSub (vsum nn fun i => fpMul (Xs i c) (w1 i)) (total c))) (total c)

/-- One Newton iteration of `rake`: update `lam` through the pseudo-inverse
of the Gram matrix (`lam = lam - pinv(phiprim, rcond=1e-15) @ phi`) and
recompute `w1`.  Returns the pair `(lam, w1)` after the update. -/
def rakeStep {nn kk : ℕ} (expf : ℚ → FP)
    (pinvf : (Fin kk → Fin kk → FP) → (Fin kk → Fin kk → FP))
    (Xs : Fin nn → Fin kk → FP) (d : Fin nn → FP) (total : Fin kk → FP)
    (lam : Fin kk → FP) (w1 : Fin nn → FP) : (Fin kk → FP) × (Fin nn → FP) :=
  let phi := rakePhi Xs w1 total
  let pp := pinvf (rakePhiprim Xs w1)
  let lam2 := fun a => fpSub (lam a) (vsum kk fun b => fpMul (pp a b) (phi b))
  (lam2, rakeNewW expf Xs d lam2)

/-- The body of `rake`'s `for i in range(max_iter)` loop.  `fuel` counts the
remaining iterations (`rake` starts it at `RAKE_MAX_ITER`), `i` is the Python
loop index, and `g` holds the current value of the Python variable `g`
(`none` encodes Python `None`).  Mirrored line by line: Newton update of
`lam` and `w1` (`rakeStep`), the NaN/Inf abort returning `None`, the early
`break` on a small residual (which returns the `g` assigned on the
*previous* iteration), and the final
`if i == max_iter: g = None else: g = w1 / d` — faithfully including the
comparison of the 0-based index `i` with `max_iter` itself. -/
def rakeLoop {nn kk : ℕ} (expf : ℚ → FP)
    (pinvf : (Fin kk → Fin kk → FP) → (Fin kk → Fin kk → FP))
    (Xs : Fin nn → Fin kk → FP) (d : Fin nn → FP) (total : Fin kk → FP) :
    ℕ → ℕ → (Fin kk → FP) → (Fin nn → FP) → Option (Fin nn → FP) →
    Option (Fin nn → FP)
  | 0, _, _, _, g => g
  | fuel + 1, i, lam, w1, g =>
      let s := rakeStep expf pinvf Xs d total lam w1
      if anyNanInf nn s.2 then none
      else if fpLtB (rakeResid Xs s.2 total) (.fin RAKE_EPS1) then g
      else
        rakeLoop expf pinvf Xs d total fuel (i + 1) s.1 s.2
          (if i = RAKE_MAX_ITER then none else some fun j => fpDiv (s.2 j) (d j))

/-- `rake(Xs, d, total)`: `lam` starts at zero, `w1 = d * exp(Xs @ 0)`, and
the Python variable `g` is initialised to `np.ones(w1.size)`. -/
def rake {nn kk : ℕ} (expf : ℚ → FP)
    (pinvf : (Fin kk → Fin kk → FP) → (Fin kk → Fin kk → FP))
    (Xs : Fin nn → Fin kk → FP) (d : Fin nn → FP) (total : Fin kk → FP) :
    Option (Fin nn → FP) :=
  rakeLoop expf pinvf Xs d total RAKE_MAX_ITER 0 (fun _ => .fin 0)
    (rakeNewW expf Xs d fun _ => .fin 0) (some fun _ => .fin 1)

/-- Companion recursion to `rakeLoop`: true iff the run never produces a
non-finite entry of `w1` (i.e. the `np.isnan(w1).any() or np.isinf(w1).any()`
abort never fires before the loop stops). -/
def rakeLoopFiniteW {nn kk : ℕ} (expf : ℚ → FP)
    (pinvf : (Fin kk → Fin kk → FP) → (Fin kk → Fin kk → FP))
    (Xs : Fin nn → Fin kk → FP) (d : Fin nn → FP) (total : Fin kk → FP) :
    ℕ → (Fin kk → FP) → (Fin nn → FP) → Bool
  | 0, _, _ => true
  | fuel + 1, lam, w1 =>
      let s := rakeStep expf pinvf Xs d total lam w1
      if anyNanInf nn s.2 then false
      else if fpLtB (rakeResid Xs s.2 total) (.fin RAKE_EPS1) then true
      else rakeLoopFiniteW expf pinvf Xs d total fuel s.1 s.2

/-- `rakeFiniteW`: the whole `rake` run keeps `w1` finite. -/
def rakeFiniteW {nn kk : ℕ} (expf : ℚ → FP)
    (pinvf : (Fin kk → Fin kk → FP) → (Fin kk → Fin kk → FP))
    (Xs : Fin nn → Fin kk → FP) (d : Fin nn → FP) (total : Fin kk → FP) : Bool :=
  rakeLoopFiniteW expf pinvf Xs d total RAKE_MAX_ITER (fun _ => .fin 0)
    (rakeNewW expf Xs d fun _ => .fin 0)

/-!
### Concrete instances of the external numeric kernels

`expQ` models `np.exp` near the origin: a degree-17 Taylor polynomial
rounded down to the grid of multiples of `2 ^ (-64)`.  On `[-1, 2]` — the
range of every exponent arising in the concrete runs below — it agrees
with the real exponential to within `4e-15` absolute, i.e. it is at least
as accurate as the double-precision `np.exp`, and every comparison in
those runs is decided by margins wider than `1e-7`, so the Boolean
branches taken by the model and by the Python code coincide.

`pinv1` models `np.linalg.pinv` on `1 x 1` matrices, where the
Moore-Penrose pseudo-inverse is exactly the scalar reciprocal (and the
zero matrix maps to zero). -/

/-- Degree-17 Taylor polynomial of the exponential. -/
def expTaylor (q : ℚ) : ℚ :=
  (List.range 18).foldl (fun acc i => acc + q ^ i / (Nat.factorial i : ℚ)) 0

/-- Round down to a multiple of `2 ^ (-64)`. -/
def dyadicRound (q : ℚ) : ℚ := (⌊q * ((2 ^ 64 : ℕ) : ℚ)⌋ : ℚ) / ((2 ^ 64 : ℕ) : ℚ)

/-- Concrete model of `np.exp` for arguments in `[-1, 2]` (see above). -/
def expQ (q : ℚ) : FP := .fin (dyadicRound (expTaylor q))

/-- Concrete model of `np.linalg.pinv` on `1 x 1` matrices. -/
def pinv1 (M : Fin 1 → Fin 1 → FP) : Fin 1 → Fin 1 → FP :=
  fun _ _ =>
    match M 0 0 with
    | .fin c => if c = 0 then .fin 0 else .fin c⁻¹
    | _ => .nan

/-!
## `get_mask` and `qrake` — the target mask and the outer calibration loop
-/

/-- `get_mask(targets, drops)` (source lines 185-190): start from an
all-True boolean matrix with the shape of `targets` (`m` areas by `k`
characteristics) and execute `mask[row, cols] = False` for every
`row ↦ cols` entry of the drop dict.  `drops` is `none` for Python `None`;
otherwise the dict is an association list of `(row, column-list)` pairs
(indices assumed in range, as numpy fancy indexing raises otherwise). -/
def get_mask (m k : ℕ) (drops : Option (List (ℕ × List ℕ))) :
    Fin m → Fin k → Bool :=
  fun r c =>
    match drops with
    | none => true
    | some l => ! l.any fun p => p.1 == r.val && p.2.any fun c2 => c2 == c.val

/-- `TOL_WTDIFF = 0.0005` (line 235). -/
def TOL_WTDIFF : ℚ := 1 / 2000

/-- `TOL_TARGPCTDIFF = 0.1` percent (line 236). -/
def TOL_TARGPCTDIFF : ℚ := 1 / 10

/-- `Q.sum(axis=1)`: the row sums of the weight-share matrix. -/
def rowSumFP {n m : ℕ} (Q : Fin n → Fin m → FP) (i : Fin n) : FP :=
  vsum m (Q i)

/-- `abswtdiff = np.abs(Q.sum(axis=1) - 1)` (line 310). -/
def absWtDiff {n m : ℕ} (Q : Fin n → Fin m → FP) (i : Fin n) : FP :=
  fpAbs (fpSub (rowSumFP Q i) (.fin 1))

/-- Lines 310-318: `max_weight_absdiff = abswtdiff.max()`, then, if any
entry of `abswtdiff` is infinite, the metric is overwritten with exactly
`TOL_WTDIFF` ("Existence of infinite coefficients" diagnostic printed);
computed from the matrix *before* row renormalization. -/
def weightMetric {n m : ℕ} (Q : Fin n → Fin m → FP) : FP :=
  if anyInf n (absWtDiff Q) then .fin TOL_WTDIFF else vmax n (absWtDiff Q)

/-- Line 321: `Q = Q / Q.sum(axis=1)[:, None]` — unconditional row
renormalization, broadcasting the recomputed row sums. -/
def renormalize {n m : ℕ} (Q : Fin n → Fin m → FP) : Fin n → Fin m → FP :=
  fun i j => fpDiv (Q i j) (rowSumFP Q i)

/-- Lines 324-326 on the renormalized matrix:
`whs = Q * wh`, `diff = whs.T @ xmat - targets`,
`abspctdiff = np.abs(diff / targets * 100)`. -/
def absPctDiff {n m k : ℕ} (wh : Fin n → FP) (xmat : Fin n → Fin k → FP)
    (targets : Fin m → Fin k → FP) (Q : Fin n → Fin m → FP) :
    Fin m → Fin k → FP :=
  fun j c =>
    fpAbs (fpMul
      (fpDiv (fpSub (vsum n fun i => fpMul (fpMul (Q i j) (wh i)) (xmat i c))
        (targets j c)) (targets j c))
      (.fin 100))

/-- `abspctdiff[mask].max()`: maximum over the masked (authoritative)
cells only, flattened row-major as numpy boolean indexing does. -/
def maskedMax {m k : ℕ} (mask : Fin m → Fin k → Bool)
    (v : Fin m → Fin k → FP) : FP :=
  (((List.finRange m).map fun j =>
    (List.finRange k).filterMap fun c =>
      if mask j c then some (v j c) else none).flatten).foldl fpMax2 .ninf

/-- Line 327: `max_targ_abspctdiff = abspctdiff[mask].max()`, computed
from the renormalized matrix. -/
def targetMetric {n m k : ℕ} (mask : Fin m → Fin k → Bool) (wh : Fin n → FP)
    (xmat : Fin n → Fin k → FP) (targets : Fin m → Fin k → FP)
    (Q : Fin n → Fin m → FP) : FP :=
  maskedMax mask (absPctDiff wh xmat targets Q)

/-- The validity test of line 300:
`np.isnan(g).any() or np.isinf(g).any() or g.any() == 0`.  (numpy's
`g.any()` is `False` exactly when every entry is zero; comparing it `== 0`
therefore tests for the all-zero vector, unlike the elementwise
`any(g == 0)` of the R original.) -/
def gInvalid (n : ℕ) (g : Fin n → FP) : Bool := anyNanInf n g || allZero n g

/-- `Q[:, j]`: one column of the weight-share matrix. -/
def columnOf {n m : ℕ} (Q : Fin n → Fin m → FP) (j : Fin m) : Fin n → FP :=
  fun i => Q i j

/-- Lines 298-306 for one area `j`: call the per-area calibrator on column
`j` of the current `Q`, validate the returned `g` (substituting the
identity adjustment `np.ones` when invalid), and rescale column `j`.
A `none` return (Python `None`, the `rake` non-convergence sentinel)
reaches `np.isnan(g)` first, which raises `TypeError` on `None`; the
exception aborts the whole `qrake` call, modelled by `Except.error`. -/
def areaStep {n m : ℕ} (gfn : Fin m → (Fin n → FP) → Option (Fin n → FP))
    (Q : Fin n → Fin m → FP) (j : Fin m) :
    Except String (Fin n → Fin m → FP) :=
  match gfn j (columnOf Q j) with
  | none => .error "TypeError: ufunc isnan not supported for None input"
  | some g0 =>
      let g := if gInvalid n g0 then (fun _ => FP.fin 1) else g0
      .ok fun i j2 => if j2 = j then fpMul (Q i j2) (g i) else Q i j2

/-- Lines 293-306: the per-area loop `for j in range(m)`, processing areas
sequentially in index order on the current matrix. -/
def areaPhase {n m : ℕ} (gfn : Fin m → (Fin n → FP) → Option (Fin n → FP))
    (Q : Fin n → Fin m → FP) : Except String (Fin n → Fin m → FP) :=
  (List.finRange m).foldlM (areaStep gfn) Q

/-- The per-area loop stopped after the first `j` areas (used to express
which matrix the calibrator of area `j` observes). -/
def areaPhaseUpTo {n m : ℕ} (gfn : Fin m → (Fin n → FP) → Option (Fin n → FP))
    (Q : Fin n → Fin m → FP) (j : ℕ) : Except String (Fin n → Fin m → FP) :=
  ((List.finRange m).take j).foldlM (areaStep gfn) Q

/-- The mutable state of `qrake`'s outer `while` loop: the current matrix
`Q`, the two convergence metrics, and the 1-based iteration counter.
`Qpre` additionally records the matrix after the most recent per-area
phase but before its row renormalization (the matrix from which `mw` was
computed) — an observation the Python code holds in the local `Q` between
lines 306 and 321. -/
structure QState (n m : ℕ) where
  Q : Fin n → Fin m → FP
  Qpre : Fin n → Fin m → FP
  mw : FP
  mt : FP
  iter : ℕ

/-- Componentwise decidable equality of loop states (phrased through
`decidable_of_iff` so that concrete runs evaluate by `decide`). -/
instance qStateDecidableEq {n m : ℕ} : DecidableEq (QState n m) := fun x y =>
  decidable_of_iff
    (x.Q = y.Q ∧ x.Qpre = y.Qpre ∧ x.mw = y.mw ∧ x.mt = y.mt ∧ x.iter = y.iter)
    (by
      cases x
      cases y
      simp [QState.mk.injEq])

/-- Decidable equality of `Except` results (needed to evaluate concrete
runs by `decide`). -/
instance exceptDecidableEq {e a : Type} [DecidableEq e] [DecidableEq a] :
    DecidableEq (Except e a) := fun x y =>
  match x, y with
  | .error u, .error v =>
      if h : u = v then .isTrue (congrArg Except.error h)
      else .isFalse fun hx => h (Except.error.inj hx)
  | .error _, .ok _ => .isFalse fun hx => Except.noConfusion hx
  | .ok _, .error _ => .isFalse fun hx => Except.noConfusion hx
  | .ok u, .ok v =>
      if h : u = v then .isTrue (congrArg Except.ok h)
      else .isFalse fun hx => h (Except.ok.inj hx)

/-- One full sweep (one iteration of the `while` body, lines 290-334):
per-area calibration on the current matrix, `max_weight_absdiff` from the
un-renormalized result (with the infinite-row-sum clamp), unconditional
row renormalization, and `max_targ_abspctdiff` from the renormalized
matrix over masked cells. -/
def sweep {n m k : ℕ} (gfn : Fin m → (Fin n → FP) → Option (Fin n → FP))
    (wh : Fin n → FP) (xmat : Fin n → Fin k → FP)
    (targets : Fin m → Fin k → FP) (mask : Fin m → Fin k → Bool)
    (s : QState n m) : Except String (QState n m) :=
  match areaPhase gfn s.Q with
  | .error e => .error e
  | .ok Qp =>
      .ok { Q := renormalize Qp
            Qpre := Qp
            mw := weightMetric Qp
            mt := targetMetric mask wh xmat targets (renormalize Qp)
            iter := s.iter + 1 }

/-- The metric half of the `while` condition (lines 286-288):
`(max_weight_absdiff > TOL_WTDIFF) or (max_targ_abspctdiff > TOL_TARGPCTDIFF)`
with numpy float comparisons (false on NaN). -/
def metricsUnconverged {n m : ℕ} (s : QState n m) : Bool :=
  fpGtB s.mw (.fin TOL_WTDIFF) || fpGtB s.mt (.fin TOL_TARGPCTDIFF)

/-- The `while` loop of lines 286-335.  The remaining-iteration budget
(`iter <= maxiter` half of the condition) is carried as fuel: `qrake`
enters with fuel `maxiter` and `iter = 1`, so fuel `0` is exactly
`iter = maxiter + 1`. -/
def qrakeLoop {n m k : ℕ} (gfn : Fin m → (Fin n → FP) → Option (Fin n → FP))
    (wh : Fin n → FP) (xmat : Fin n → Fin k → FP)
    (targets : Fin m → Fin k → FP) (mask : Fin m → Fin k → Bool) :
    ℕ → QState n m → Except String (QState n m)
  | 0, s => .ok s
  | fuel + 1, s =>
      if metricsUnconverged s then
        match sweep gfn wh xmat targets mask s with
        | .error e => .error e
        | .ok s2 => qrakeLoop gfn wh xmat targets mask fuel s2
      else .ok s

/-- `maxiter=200`: the default of the `qrake` signature (line 193), the
same for every `method`. -/
def qrakeDefaultMaxiter : ℕ := 200

/-- `qrake(Q, wh, xmat, targets, method, maxiter, drops)` (lines 192-369).

The per-area calibrator call
`gfn(xmat_wh[:, good_cols], Q[:, j], targets[j, good_cols], objective)`
(line 298) depends on the sweep state only through the area index `j` and
the current column `Q[:, j]`; the other arguments (`xmat_wh = xmat * wh`,
the target row, the mask row, the objective) are fixed before the loop,
so the calibrator enters the embedding as the parameter `gfn j column` —
instances are built from the `rake` model above.  The initial metric
values are the `1e9` sentinels of lines 244-245 and `iter` starts at 1.
`Q = Q.copy()` (line 272) is the identity at value level; its aliasing
content is treated in the heap model below.  The returned state carries
the final `Q` (the function's return value) together with the loop's exit
metrics and counter, which the Python code holds in locals and prints. -/
def qrake {n m k : ℕ} (gfn : Fin m → (Fin n → FP) → Option (Fin n → FP))
    (wh : Fin n → FP) (xmat : Fin n → Fin k → FP)
    (targets : Fin m → Fin k → FP) (drops : Option (List (ℕ × List ℕ)))
    (maxiter : ℕ) (Q0 : Fin n → Fin m → FP) : Except String (QState n m) :=
  qrakeLoop gfn wh xmat targets (get_mask m k drops) maxiter
    { Q := Q0, Qpre := Q0, mw := .fin 1000000000, mt := .fin 1000000000, iter := 1 }

/-!
### Small concrete instances used in counterexamples and witnesses
-/

/-- The all-ones 1 x 1 matrix. -/
def oneM : Fin 1 → Fin 1 → FP := fun _ _ => .fin 1

/-- The all-ones length-1 vector. -/
def oneV : Fin 1 → FP := fun _ => .fin 1

/-- The per-area calibrator of a 1-household, 1-area, 1-characteristic
problem with unit data, obtained directly from the `rake` model:
`xmat_wh = [[1]]`, target row `[1]`.  On the unit column it converges at
loop index 0 and returns the initial `g = np.ones(1)`. -/
def gfnRake1 : Fin 1 → (Fin 1 → FP) → Option (Fin 1 → FP) :=
  fun _ d => rake expQ pinv1 oneM d oneV

/-- The state in which `qrake` on the unit problem (calibrator
`gfnRake1`) exits after its first sweep: both metrics are exactly zero
and the counter has advanced to 2. -/
def qcW : QState 1 1 :=
  { Q := oneM, Qpre := oneM, mw := .fin 0, mt := .fin 0, iter := 2 }

/-- A target ten orders of magnitude beyond anything achievable:
`1e300` (`float` representable; `exp` of the resulting Lagrange step
overflows). -/
def bigT : ℚ := ((10 ^ 300 : ℕ) : ℚ)

/-- Model of `np.exp` that overflows to `inf` above 709 (the double
`exp` overflow threshold is about 709.78) and uses the Taylor model
below it; in the runs where it appears it is evaluated only at 0 and at
`bigT - 1`. -/
def expOv : ℚ → FP := fun q => if q ≤ 709 then expQ q else .pinf

/-- The divergent per-area calibrator: `rake` on the unit problem with the
unreachable target `1e300`.  Its Newton step sends `lam` to `1e300 - 1`,
`exp` overflows, `w1` becomes infinite, and `rake` returns `None`. -/
def gfnRakeOv : Fin 1 → (Fin 1 → FP) → Option (Fin 1 → FP) :=
  fun _ d => rake expOv pinv1 oneM d (fun _ => .fin bigT)

/-- A 1 x 1 weight-share matrix holding `+inf` (the state of `Q` after a
sweep whose column updates overflowed). -/
def Qinf : Fin 1 → Fin 1 → FP := fun _ _ => .pinf

/-- A 1 x 1 weight-share matrix holding the huge (finite, float
representable) share `1e300`. -/
def QbigM : Fin 1 → Fin 1 → FP := fun _ _ => .fin bigT

/-- A calibrator returning the finite adjustment `g = 1e300`: it passes
the validity test of line 300 (no NaN, no inf, not all-zero), yet the
column rescale `Q[:, j] * g` overflows to `+inf`. -/
def gfnBig : Fin 1 → (Fin 1 → FP) → Option (Fin 1 → FP) :=
  fun _ _ => some fun _ => .fin bigT

/-- A 1-household, 2-area weight-share matrix of ones. -/
def Q62 : Fin 1 → Fin 2 → FP := fun _ _ => .fin 1

/-- A calibrator that asks every area to double its column — so the first
area's update visibly changes the matrix mid-sweep. -/
def gfn62 : Fin 2 → (Fin 1 → FP) → Option (Fin 1 → FP) :=
  fun _ _ => some fun _ => .fin 2

/-- `Q62` after the sweep has processed area 0 only. -/
def Q62after : Fin 1 → Fin 2 → FP :=
  fun _ j => if j = 0 then .fin 2 else .fin 1

/-!
### Concrete data for the raking toy case of the spec (claim C5)

`X = [[1],[1],[1]]` (3 records, 1 characteristic), `d = [1,1,1]`,
`total = [6]`.  The rationals `c5lam1 … c5w5` are the Newton iterates of
the run, computed by the model itself (each is forced by the step
equalities proved below).  The run performs five iterations: the residual
first drops below `1e-8` at loop index `i = 4`, whereupon the `break`
returns the `g` assigned at the end of `i = 3`, namely `w4 / d` — the
penultimate iterate `c5w4 ≈ 2.0000008`, not the converged `c5w5 ≈ 2`. -/

/-- Toy covariates: 3 records, 1 characteristic, all ones. -/
def X5 : Fin 3 → Fin 1 → FP := fun _ _ => .fin 1

/-- Toy initial weights `d = [1,1,1]`. -/
def d5 : Fin 3 → FP := fun _ => .fin 1

/-- Toy target `total = [6]`. -/
def t5 : Fin 1 → FP := fun _ => .fin 6

/-- Newton iterate `lam` after iteration 0. -/
def c5lam1 : ℚ := 1

/-- `w1` after iteration 0 (the model exponential at 1). -/
def c5w1 : ℚ := 50143449209799253641 / 18446744073709551616

/-- Newton iterate `lam` after iteration 1. -/
def c5lam2 : ℚ := 36893488147419103232 / 50143449209799253641

/-- `w1` after iteration 1. -/
def c5w2 : ℚ := 9624889534439835743 / 4611686018427387904

/-- Newton iterate `lam` after iteration 2. -/
def c5lam3 : ℚ :=
  334962275712072103250760739415188448041 /
    482625159520112287850047110900034690263

/-- `w1` after iteration 2. -/
def c5w3 : ℚ := 1153953968985482203 / 576460752303423488

/-- Newton iterate `lam` after iteration 3. -/
def c5lam4 : ℚ :=
  386032754232917330394975526057273640776686112835990019622 /
    556927218360485055797226732847865642670191312920803889389

/-- `w1` after iteration 3; `c5w4 / d = c5w4` is the value `rake` returns. -/
def c5w4 : ℚ := 36893502923257649563 / 18446744073709551616

/-- Newton iterate `lam` after iteration 4. -/
def c5lam5 : ℚ :=
  14242092317698676770419263882554807209070307392766943392688167156841293943427 /
    20546995958624306728186187114710657286494147056529574905583281559756776187007

/-- `w1` after iteration 4, the iterate whose residual finally beats
`RAKE_EPS1`. -/
def c5w5 : ℚ := 9223372036855515523 / 4611686018427387904

/-!
## Heap model of `qrake`'s array writes (frame effect)

The value-level model above ignores aliasing.  This model tracks the
numpy arrays of one `qrake` call as cells of a heap indexed by allocation
order (a `List`, so a caller array's id is below the heap length at entry
and allocation appends).  The statements of `qrake` act on the heap as
follows: `Q = Q.copy()` (line 272) allocates a fresh Q-shaped cell and
rebinds the local name `Q` to it; each `Q[:, j] = ...` (line 306) writes
in place to the array currently bound to `Q`;
`Q = Q / Q.sum(axis=1)[:, None]` (line 321) allocates the renormalized
array and rebinds; every other statement only reads caller arrays or
builds temporaries (`wh.reshape` returns a view without writing,
`xmat * wh`, `np.multiply`, `np.dot` allocate fresh arrays), so no other
statement writes to any caller cell.
-/

/-- A numpy array of the `qrake` call, by shape: a weight-share matrix
(n x m), the national weight vector (n), the characteristic matrix
(n x k), or the target matrix (m x k). -/
inductive Cell (n m k : ℕ) where
  | qmat : (Fin n → Fin m → FP) → Cell n m k
  | wvec : (Fin n → FP) → Cell n m k
  | cmat : (Fin n → Fin k → FP) → Cell n m k
  | tmat : (Fin m → Fin k → FP) → Cell n m k

/-- Decidable equality of heap cells (phrased through `decidable_of_iff`
so that concrete heaps evaluate by `decide`). -/
instance cellDecidableEq {n m k : ℕ} : DecidableEq (Cell n m k) := fun x y =>
  match x, y with
  | .qmat a, .qmat b => decidable_of_iff (a = b) (by simp)
  | .qmat _, .wvec _ => .isFalse fun h => Cell.noConfusion h
  | .qmat _, .cmat _ => .isFalse fun h => Cell.noConfusion h
  | .qmat _, .tmat _ => .isFalse fun h => Cell.noConfusion h
  | .wvec _, .qmat _ => .isFalse fun h => Cell.noConfusion h
  | .wvec a, .wvec b => decidable_of_iff (a = b) (by simp)
  | .wvec _, .cmat _ => .isFalse fun h => Cell.noConfusion h
  | .wvec _, .tmat _ => .isFalse fun h => Cell.noConfusion h
  | .cmat _, .qmat _ => .isFalse fun h => Cell.noConfusion h
  | .cmat _, .wvec _ => .isFalse fun h => Cell.noConfusion h
  | .cmat a, .cmat b => decidable_of_iff (a = b) (by simp)
  | .cmat _, .tmat _ => .isFalse fun h => Cell.noConfusion h
  | .tmat _, .qmat _ => .isFalse fun h => Cell.noConfusion h
  | .tmat _, .wvec _ => .isFalse fun h => Cell.noConfusion h
  | .tmat _, .cmat _ => .isFalse fun h => Cell.noConfusion h
  | .tmat a, .tmat b => decidable_of_iff (a = b) (by simp)

/-- Read a heap cell (out-of-range reads give a NaN-filled matrix; never
exercised under the id bounds of the theorems below). -/
def hget {n m k : ℕ} (h : List (Cell n m k)) (id : ℕ) : Cell n m k :=
  h.getD id (.qmat fun _ _ => .nan)

/-- Extract a Q-shaped matrix from a cell. -/
def getQv {n m k : ℕ} : Cell n m k → (Fin n → Fin m → FP)
  | .qmat Q => Q
  | _ => fun _ _ => .nan

/-- Extract the national weight vector from a cell. -/
def getWv {n m k : ℕ} : Cell n m k → (Fin n → FP)
  | .wvec v => v
  | _ => fun _ => .nan

/-- Extract the characteristic matrix from a cell. -/
def getCv {n m k : ℕ} : Cell n m k → (Fin n → Fin k → FP)
  | .cmat x => x
  | _ => fun _ _ => .nan

/-- Extract the target matrix from a cell. -/
def getTv {n m k : ℕ} : Cell n m k → (Fin m → Fin k → FP)
  | .tmat t => t
  | _ => fun _ _ => .nan

/-- The in-place column writes of one sweep (`Q[:, j] = Q[:, j] * g` for
each area in index order): read the array bound to `Q`, compute the
column update, and store the result back into the *same* cell `cur`. -/
def heapAreaLoop {n m k : ℕ} (gfn : Fin m → (Fin n → FP) → Option (Fin n → FP)) :
    List (Fin m) → List (Cell n m k) → ℕ → Except String (List (Cell n m k))
  | [], h, _ => .ok h
  | j :: rest, h, cur =>
      match areaStep gfn (getQv (hget h cur)) j with
      | .error e => .error e
      | .ok Q2 => heapAreaLoop gfn rest (h.set cur (.qmat Q2)) cur

/-- The loop state of the heap model: the heap, the id currently bound to
the local name `Q`, the two metrics (plain Python floats, not arrays), and
the iteration counter. -/
structure ImpState (n m k : ℕ) where
  heap : List (Cell n m k)
  cur : ℕ
  mw : FP
  mt : FP
  iter : ℕ

/-- Componentwise decidable equality of heap-model states. -/
instance impStateDecidableEq {n m k : ℕ} : DecidableEq (ImpState n m k) :=
  fun x y =>
    decidable_of_iff
      (x.heap = y.heap ∧ x.cur = y.cur ∧ x.mw = y.mw ∧ x.mt = y.mt ∧
        x.iter = y.iter)
      (by
        cases x
        cases y
        simp [ImpState.mk.injEq])

/-- One sweep at heap level: the per-area in-place writes on cell `cur`,
the weight metric from the written array, then line 321 — allocation of
the renormalized array and rebinding of `Q` to the fresh id — and the
target metric from the new array. -/
def sweepImp {n m k : ℕ} (gfn : Fin m → (Fin n → FP) → Option (Fin n → FP))
    (wh : Fin n → FP) (xmat : Fin n → Fin k → FP)
    (targets : Fin m → Fin k → FP) (mask : Fin m → Fin k → Bool)
    (s : ImpState n m k) : Except String (ImpState n m k) :=
  match heapAreaLoop gfn (List.finRange m) s.heap s.cur with
  | .error e => .error e
  | .ok h2 =>
      .ok { heap := h2 ++ [.qmat (renormalize (getQv (hget h2 s.cur)))]
            cur := h2.length
            mw := weightMetric (getQv (hget h2 s.cur))
            mt := targetMetric mask wh xmat targets
              (renormalize (getQv (hget h2 s.cur)))
            iter := s.iter + 1 }

/-- The `while` loop at heap level, with the same condition as
`qrakeLoop`. -/
def qrakeImpLoop {n m k : ℕ} (gfn : Fin m → (Fin n → FP) → Option (Fin n → FP))
    (wh : Fin n → FP) (xmat : Fin n → Fin k → FP)
    (targets : Fin m → Fin k → FP) (mask : Fin m → Fin k → Bool) :
    ℕ → ImpState n m k → Except String (ImpState n m k)
  | 0, s => .ok s
  | fuel + 1, s =>
      if fpGtB s.mw (.fin TOL_WTDIFF) || fpGtB s.mt (.fin TOL_TARGPCTDIFF) then
        match sweepImp gfn wh xmat targets mask s with
        | .error e => .error e
        | .ok s2 => qrakeImpLoop gfn wh xmat targets mask fuel s2
      else .ok s

/-- `qrake` at heap level: read `wh`, `xmat`, `targets` from their caller
cells (reads only), copy the caller's `Q` into a freshly allocated cell
(line 272) binding the local name to it, and run the loop. -/
def qrakeImp {n m k : ℕ} (gfn : Fin m → (Fin n → FP) → Option (Fin n → FP))
    (drops : Option (List (ℕ × List ℕ))) (maxiter : ℕ)
    (qId whId xmatId targetsId : ℕ) (h : List (Cell n m k)) :
    Except String (ImpState n m k) :=
  qrakeImpLoop gfn (getWv (hget h whId)) (getCv (hget h xmatId))
    (getTv (hget h targetsId)) (get_mask m k drops) maxiter
    { heap := h ++ [.qmat (getQv (hget h qId))], cur := h.length,
      mw := .fin 1000000000, mt := .fin 1000000000, iter := 1 }

/-- A concrete caller heap for the unit problem: the caller's `Q` at id 0,
`wh` at id 1, `xmat` at id 2 and `targets` at id 3, all ones. -/
def h0c : List (Cell 1 1 1) := [.qmat oneM, .wvec oneV, .cmat oneM, .tmat oneM]

/-- The heap state `qrakeImp` reaches on `h0c`: the four caller cells are
intact, the copy of `Q` sits at id 4, the renormalized result at id 5. -/
def s2c : ImpState 1 1 1 :=
  { heap := [.qmat oneM, .wvec oneV, .cmat oneM, .tmat oneM, .qmat oneM,
      .qmat oneM],
    cur := 5, mw := .fin 0, mt := .fin 0, iter := 2 }

/-- Unfolding lemma for one non-final `rake` iteration: if the Newton step
produces `(lam2, w2)`, `w2` is finite, the residual is not yet below
`RAKE_EPS1`, and the loop index has not reached `max_iter`, the loop
continues with `g` set to `w2 / d`. -/
theorem rakeLoop_cont {nn kk : ℕ} (expf : ℚ → FP)
    (pinvf : (Fin kk → Fin kk → FP) → (Fin kk → Fin kk → FP))
    (Xs : Fin nn → Fin kk → FP) (d : Fin nn → FP) (total : Fin kk → FP)
    (fuel i : ℕ) (lam : Fin kk → FP) (w1 : Fin nn → FP)
    (g : Option (Fin nn → FP)) (lam2 : Fin kk → FP) (w2 g2 : Fin nn → FP)
    (h : rakeStep expf pinvf Xs d total lam w1 = (lam2, w2))
    (hfin : anyNanInf nn w2 = false)
    (hres : fpLtB (rakeResid Xs w2 total) (.fin RAKE_EPS1) = false)
    (hi : ¬ i = RAKE_MAX_ITER)
    (hg : (fun j => fpDiv (w2 j) (d j)) = g2) :
    rakeLoop expf pinvf Xs d total (fuel + 1) i lam w1 g =
      rakeLoop expf pinvf Xs d total fuel (i + 1) lam2 w2 (some g2) := by
  simp only [rakeLoop, h]
  simp [hfin, hres, hi, hg]

/-- Unfolding lemma for the final `rake` iteration: when the residual check
passes, the loop `break`s and returns the *current* `g` — the adjustment
computed from the previous iterate, not from the converged `w2`. -/
theorem rakeLoop_break {nn kk : ℕ} (expf : ℚ → FP)
    (pinvf : (Fin kk → Fin kk → FP) → (Fin kk → Fin kk → FP))
    (Xs : Fin nn → Fin kk → FP) (d : Fin nn → FP) (total : Fin kk → FP)
    (fuel i : ℕ) (lam : Fin kk → FP) (w1 : Fin nn → FP)
    (g : Option (Fin nn → FP)) (lam2 : Fin kk → FP) (w2 : Fin nn → FP)
    (h : rakeStep expf pinvf Xs d total lam w1 = (lam2, w2))
    (hfin : anyNanInf nn w2 = false)
    (hres : fpLtB (rakeResid Xs w2 total) (.fin RAKE_EPS1) = true) :
    rakeLoop expf pinvf Xs d total (fuel + 1) i lam w1 g = g := by
  simp only [rakeLoop, h]
  simp [hfin, hres]

set_option maxRecDepth 8000 in
unseal Rat.add Rat.mul Rat.inv Rat.sub in
/-- The complete toy raking run: `rake` on `X5`, `d5`, `t5` returns the
constant vector `c5w4`.  Proved by stepping the loop through its five
iterations; the final residual check passes at loop index 4 and the
`break` hands back the `g` assigned at the end of loop index 3. -/
theorem rake_toy_run : rake expQ pinv1 X5 d5 t5 = some fun _ => FP.fin c5w4 := by
  have h0 : rakeNewW expQ X5 d5 (fun _ => FP.fin 0) = fun _ => FP.fin 1 := by decide
  have hs0 : rakeStep expQ pinv1 X5 d5 t5 (fun _ => FP.fin 0) (fun _ => FP.fin 1)
      = (fun _ => FP.fin c5lam1, fun _ => FP.fin c5w1) := by decide
  have hs1 : rakeStep expQ pinv1 X5 d5 t5 (fun _ => FP.fin c5lam1) (fun _ => FP.fin c5w1)
      = (fun _ => FP.fin c5lam2, fun _ => FP.fin c5w2) := by decide
  have hs2 : rakeStep expQ pinv1 X5 d5 t5 (fun _ => FP.fin c5lam2) (fun _ => FP.fin c5w2)
      = (fun _ => FP.fin c5lam3, fun _ => FP.fin c5w3) := by decide
  have hs3 : rakeStep expQ pinv1 X5 d5 t5 (fun _ => FP.fin c5lam3) (fun _ => FP.fin c5w3)
      = (fun _ => FP.fin c5lam4, fun _ => FP.fin c5w4) := by decide
  have hs4 : rakeStep expQ pinv1 X5 d5 t5 (fun _ => FP.fin c5lam4) (fun _ => FP.fin c5w4)
      = (fun _ => FP.fin c5lam5, fun _ => FP.fin c5w5) := by decide
  have e1 : rake expQ pinv1 X5 d5 t5
      = rakeLoop expQ pinv1 X5 d5 t5 RAKE_MAX_ITER 0 (fun _ => FP.fin 0) (fun _ => FP.fin 1)
          (some fun _ => FP.fin 1) := by
    unfold rake
    rw [h0]
  have e2 : rakeLoop expQ pinv1 X5 d5 t5 RAKE_MAX_ITER 0 (fun _ => FP.fin 0) (fun _ => FP.fin 1)
        (some fun _ => FP.fin 1)
      = rakeLoop expQ pinv1 X5 d5 t5 9 1 (fun _ => FP.fin c5lam1) (fun _ => FP.fin c5w1)
          (some fun _ => FP.fin c5w1) :=
    rakeLoop_cont _ _ _ _ _ 9 0 _ _ _ _ _ _ hs0 (by decide) (by decide) (by decide) (by decide)
  have e3 : rakeLoop expQ pinv1 X5 d5 t5 9 1 (fun _ => FP.fin c5lam1) (fun _ => FP.fin c5w1)
        (some fun _ => FP.fin c5w1)
      = rakeLoop expQ pinv1 X5 d5 t5 8 2 (fun _ => FP.fin c5lam2) (fun _ => FP.fin c5w2)
          (some fun _ => FP.fin c5w2) :=
    rakeLoop_cont _ _ _ _ _ 8 1 _ _ _ _ _ _ hs1 (by decide) (by decide) (by decide) (by decide)
  have e4 : rakeLoop expQ pinv1 X5 d5 t5 8 2 (fun _ => FP.fin c5lam2) (fun _ => FP.fin c5w2)
        (some fun _ => FP.fin c5w2)
      = rakeLoop expQ pinv1 X5 d5 t5 7 3 (fun _ => FP.fin c5lam3) (fun _ => FP.fin c5w3)
          (some fun _ => FP.fin c5w3) :=
    rakeLoop_cont _ _ _ _ _ 7 2 _ _ _ _ _ _ hs2 (by decide) (by decide) (by decide) (by decide)
  have e5 : rakeLoop expQ pinv1 X5 d5 t5 7 3 (fun _ => FP.fin c5lam3) (fun _ => FP.fin c5w3)
        (some fun _ => FP.fin c5w3)
      = rakeLoop expQ pinv1 X5 d5 t5 6 4 (fun _ => FP.fin c5lam4) (fun _ => FP.fin c5w4)
          (some fun _ => FP.fin c5w4) :=
    rakeLoop_cont _ _ _ _ _ 6 3 _ _ _ _ _ _ hs3 (by decide) (by decide) (by decide) (by decide)
  have e6 : rakeLoop expQ pinv1 X5 d5 t5 6 4 (fun _ => FP.fin c5lam4) (fun _ => FP.fin c5w4)
        (some fun _ => FP.fin c5w4)
      = some fun _ => FP.fin c5w4 :=
    rakeLoop_break _ _ _ _ _ 5 4 _ _ _ _ _ hs4 (by decide) (by decide)
  exact ((((e1.trans e2).trans e3).trans e4).trans e5).trans e6

set_option maxRecDepth 8000 in
unseal Rat.add Rat.mul Rat.inv Rat.sub in
/-- Claim C5 (counterexample): on the exactly determined toy problem
`X = [[1],[1],[1]]`, `d = [1,1,1]`, `total = [6]`, `rake` returns the
constant vector `c5w4 ≈ 2.0000008`; the achieved total `Xᵀ(d·g) = 3·c5w4`
misses 6 by about `2.4e-6`, which is *not* within the claimed `1e-6`, and
`g` is not `[2,2,2]`.  (The convergence `break` fires before `g` is
updated, so the penultimate Newton iterate is returned.) -/
theorem rake_toycase_counterexample :
    rake expQ pinv1 X5 d5 t5 = (some fun _ => FP.fin c5w4) ∧
    fpLtB (.fin (1 / 1000000))
      (fpAbs (fpSub (vsum 3 fun i => fpMul (X5 i 0) (fpMul (d5 i) (FP.fin c5w4)))
        (.fin 6))) = true ∧
    ¬ c5w4 = 2 :=
  ⟨rake_toy_run, by decide, by decide⟩

set_option maxRecDepth 8000 in
unseal Rat.add Rat.mul Rat.inv Rat.sub in
/-- Claim C5 (amended): on the toy problem, `rake` returns a constant
vector `g = [c,c,c]` whose achieved total `Xᵀ(d·g)` equals 6 to within
`3e-6` (but not within `1e-6`), and whose entries equal 2 to within
`1e-6`; the returned `g` is the penultimate Newton iterate because the
convergence `break` precedes the update of `g`. -/
theorem rake_toycase_amended :
    rake expQ pinv1 X5 d5 t5 = (some fun _ => FP.fin c5w4) ∧
    |3 * c5w4 - 6| ≤ 3 / 1000000 ∧ |c5w4 - 2| ≤ 1 / 1000000 :=
  ⟨rake_toy_run, by decide, by decide⟩

/-- Claim C9: for the drop spec `{2: (1, 3)}` over a 5 x 4 target matrix,
`get_mask` is False exactly at positions `(2,1)` and `(2,3)` and True
everywhere else; and for every target shape, an absent (`None`) or empty
(`{}`) drop spec yields an all-True matrix. -/
theorem get_mask_spec :
    (∀ (r : Fin 5) (c : Fin 4),
      get_mask 5 4 (some [(2, [1, 3])]) r c = false ↔
        (r.val = 2 ∧ c.val = 1) ∨ (r.val = 2 ∧ c.val = 3)) ∧
    (∀ m k, get_mask m k none = fun _ _ => true) ∧
    (∀ m k, get_mask m k (some []) = fun _ _ => true) := by
  refine ⟨by decide, fun m k => ?_, fun m k => ?_⟩ <;> funext r c <;> simp [get_mask]

/-- Claim C8 (counterexample): the `qrake` signature carries the single
default `maxiter=200` independent of `method`, so the default iteration
cap for the convex (`raking-ec`) method is 200, not 50 — the value 50
appears only at exploratory call sites. -/
theorem qrake_default_maxiter_counterexample :
    qrakeDefaultMaxiter = 200 ∧ ¬ qrakeDefaultMaxiter = 50 := by decide

unseal Rat.add Rat.mul Rat.inv Rat.sub in
/-- Claim C7 (counterexample): for a sweep whose (pre-renormalization)
matrix holds an infinite entry — so `abswtdiff` is infinite — the metric
of lines 310-318 is clamped to *exactly* `TOL_WTDIFF = 0.0005`, not to
just below it, and the `max_weight_absdiff > TOL_WTDIFF` half of the loop
condition is then false: the clamp does not force another iteration. -/
theorem qrake_inf_clamp_counterexample :
    anyInf 1 (absWtDiff Qinf) = true ∧
    weightMetric Qinf = .fin TOL_WTDIFF ∧
    ¬ fpLtB (weightMetric Qinf) (.fin TOL_WTDIFF) = true ∧
    fpGtB (weightMetric Qinf) (.fin TOL_WTDIFF) = false := by decide

/-- Claim C7 (amended): in every sweep where some entry of `abswtdiff` is
infinite, `qrake` sets `max_weight_absdiff` to exactly the weight
tolerance `0.0005` — so the weight criterion of the loop condition is
satisfied rather than forced to fail, and a further iteration happens only
if the target criterion is still unmet — prints the divergence diagnostic,
and the sweep completes normally (no exception): a sweep whose area phase
produced such a matrix returns `.ok` with the clamped metric. -/
theorem qrake_inf_clamp_amended {n m : ℕ} (Q : Fin n → Fin m → FP)
    (h : anyInf n (absWtDiff Q) = true) :
    weightMetric Q = .fin TOL_WTDIFF ∧
    fpGtB (weightMetric Q) (.fin TOL_WTDIFF) = false ∧
    ∀ {k : ℕ} (gfn : Fin m → (Fin n → FP) → Option (Fin n → FP))
      (wh : Fin n → FP) (xmat : Fin n → Fin k → FP)
      (targets : Fin m → Fin k → FP) (mask : Fin m → Fin k → Bool)
      (s : QState n m), areaPhase gfn s.Q = .ok Q →
        sweep gfn wh xmat targets mask s =
          .ok { Q := renormalize Q, Qpre := Q, mw := .fin TOL_WTDIFF,
                mt := targetMetric mask wh xmat targets (renormalize Q),
                iter := s.iter + 1 } := by
  have hm : weightMetric Q = .fin TOL_WTDIFF := by rw [weightMetric, if_pos h]
  refine ⟨hm, ?_, ?_⟩
  · rw [hm]
    simp [fpGtB, fpLtB]
  · intro k gfn wh xmat targets mask s hap
    simp only [sweep, hap, hm]

/-- Claim C7 (witness): the amended clamp behaviour evaluated at the
concrete divergent matrix `Qinf`. -/
theorem qrake_inf_clamp_witness :
    anyInf 1 (absWtDiff Qinf) = true ∧
    (weightMetric Qinf = .fin TOL_WTDIFF ∧
      fpGtB (weightMetric Qinf) (.fin TOL_WTDIFF) = false ∧
      ∀ (gfn : Fin 1 → (Fin 1 → FP) → Option (Fin 1 → FP))
        (wh : Fin 1 → FP) (xmat : Fin 1 → Fin 1 → FP)
        (targets : Fin 1 → Fin 1 → FP) (mask : Fin 1 → Fin 1 → Bool)
        (s : QState 1 1), areaPhase gfn s.Q = .ok Qinf →
          sweep gfn wh xmat targets mask s =
            .ok { Q := renormalize Qinf, Qpre := Qinf, mw := .fin TOL_WTDIFF,
                  mt := targetMetric mask wh xmat targets (renormalize Qinf),
                  iter := s.iter + 1 }) :=
  ⟨by decide, (qrake_inf_clamp_amended Qinf (by decide)).1,
    (qrake_inf_clamp_amended Qinf (by decide)).2.1,
    fun gfn wh xmat targets mask s hap =>
      (qrake_inf_clamp_amended Qinf (by decide)).2.2 gfn wh xmat targets mask s hap⟩

unseal Rat.add Rat.mul Rat.inv Rat.sub in
/-- Claim C1 (code bug): when the per-area calibrator signals
non-convergence with the `None` sentinel, `qrake` does *not* substitute
the identity adjustment — the very first validity test `np.isnan(g)`
raises `TypeError` on `None`, and the exception escapes `qrake`.  On the
unit 1 x 1 problem with the unreachable target `1e300`, `rake` overflows
and returns `None`, and the `qrake` run aborts with the error.  (The R
original guards with `is.null(g)` before `is.na`; the port dropped the
null check.) -/
theorem qrake_none_sentinel_raises :
    rake expOv pinv1 oneM oneV (fun _ => .fin bigT) = none ∧
    qrake gfnRakeOv oneV oneM (fun _ _ => .fin bigT) none 10 oneM =
      .error "TypeError: ufunc isnan not supported for None input" := by
  constructor <;> decide

/-- Elements of the first `t` positions of `finRange` have value below `t`. -/
theorem mem_take_finRange {m t : ℕ} {a : Fin m}
    (h : a ∈ (List.finRange m).take t) : a.val < t := by
  rw [List.mem_take_iff_getElem] at h
  obtain ⟨i, hi, rfl⟩ := h
  simpa using lt_of_lt_of_le hi inf_le_left

/-- A successful `areaStep` for area `a` leaves every other column of the
matrix unchanged: the update writes `Q[:, a]` only. -/
theorem areaStep_ok_col_untouched {n m : ℕ}
    (gfn : Fin m → (Fin n → FP) → Option (Fin n → FP))
    (Q : Fin n → Fin m → FP) (a j : Fin m) (Q2 : Fin n → Fin m → FP)
    (h : areaStep gfn Q a = .ok Q2) (hja : ¬ j = a) :
    columnOf Q2 j = columnOf Q j := by
  unfold areaStep at h
  cases hg : gfn a (columnOf Q a) with
  | none => rw [hg] at h; exact absurd h (by simp)
  | some g0 =>
      rw [hg] at h
      cases h
      funext i
      simp [columnOf, hja]

/-- Folding `areaStep` over a list of areas not containing `j` leaves
column `j` unchanged. -/
theorem foldlM_areaStep_cols {n m : ℕ}
    (gfn : Fin m → (Fin n → FP) → Option (Fin n → FP)) (j : Fin m) :
    ∀ (L : List (Fin m)), (∀ a ∈ L, ¬ j = a) →
      ∀ (Q Q2 : Fin n → Fin m → FP),
        L.foldlM (areaStep gfn) Q = .ok Q2 → columnOf Q2 j = columnOf Q j := by
  intro L
  induction L with
  | nil =>
      intro _ Q Q2 h
      simp only [List.foldlM_nil] at h
      cases h
      rfl
  | cons a L ih =>
      intro hmem Q Q2 h
      rw [List.foldlM_cons] at h
      cases hstep : areaStep gfn Q a with
      | error e =>
          rw [hstep] at h
          have hcontra : (Except.error e : Except String (Fin n → Fin m → FP))
              = .ok Q2 := h
          exact absurd hcontra (by simp)
      | ok Q1 =>
          rw [hstep] at h
          have h2 : L.foldlM (areaStep gfn) Q1 = .ok Q2 := h
          have hc1 := areaStep_ok_col_untouched gfn Q a j Q1 hstep
            (hmem a (List.mem_cons_self a L))
          rw [ih (fun b hb => hmem b (List.mem_cons_of_mem a hb)) Q1 Q2 h2, hc1]

unseal Rat.add Rat.mul Rat.inv Rat.sub in
/-- Claim C6 (counterexample): on the 1-household, 2-area matrix `Q62`
with a calibrator that doubles every column, the sweep's first area
visibly changes the matrix, yet the column handed to the second area's
calibrator — and hence the `g` it computes — is exactly the pre-sweep
column: the later area does *not* see the earlier area's update. -/
theorem qrake_sweep_jacobi_counterexample :
    areaPhaseUpTo gfn62 Q62 1 = .ok Q62after ∧
    ¬ columnOf Q62after 0 = columnOf Q62 0 ∧
    columnOf Q62after 1 = columnOf Q62 1 ∧
    gfn62 1 (columnOf Q62after 1) = gfn62 1 (columnOf Q62 1) := by
  exact ⟨by decide, by decide, by decide, rfl⟩

/-- Claim C6 (amended): within one sweep of `qrake`, areas are processed
sequentially in index order 0..m-1 (`areaPhase` is the fold over the first
`m` prefixes), but each area's adjustment is computed from its own column
of `Q` only, and the areas processed earlier in the sweep never modify
that column: the matrix reaching area `j` agrees with the pre-sweep matrix
on column `j`, so the `g` computed for area `j` is the one the pre-sweep
matrix would give (a synchronized Jacobi update within the sweep;
cross-area coupling arises only from the end-of-sweep renormalization). -/
theorem qrake_sweep_column_independence {n m : ℕ}
    (gfn : Fin m → (Fin n → FP) → Option (Fin n → FP))
    (Q : Fin n → Fin m → FP) (j : Fin m) (Q2 : Fin n → Fin m → FP)
    (h : areaPhaseUpTo gfn Q j.val = .ok Q2) :
    columnOf Q2 j = columnOf Q j ∧
    gfn j (columnOf Q2 j) = gfn j (columnOf Q j) ∧
    areaPhase gfn Q = areaPhaseUpTo gfn Q m := by
  have hcols : columnOf Q2 j = columnOf Q j := by
    refine foldlM_areaStep_cols gfn j _ ?_ Q Q2 h
    intro a ha hja
    have := mem_take_finRange ha
    rw [← hja] at this
    exact lt_irrefl _ this
  refine ⟨hcols, by rw [hcols], ?_⟩
  unfold areaPhase areaPhaseUpTo
  rw [List.take_of_length_le (le_of_eq (List.length_finRange m))]

unseal Rat.add Rat.mul Rat.inv Rat.sub in
/-- Claim C6 (witness): the column-independence of the sweep evaluated on
the concrete two-area instance. -/
theorem qrake_sweep_column_independence_witness :
    areaPhaseUpTo gfn62 Q62 (1 : Fin 2).val = .ok Q62after ∧
    (columnOf Q62after 1 = columnOf Q62 1 ∧
      gfn62 1 (columnOf Q62after 1) = gfn62 1 (columnOf Q62 1) ∧
      areaPhase gfn62 Q62 = areaPhaseUpTo gfn62 Q62 2) :=
  ⟨by decide, qrake_sweep_column_independence gfn62 Q62 1 Q62after (by decide)⟩

/-- If every iteration of a `rake` run keeps `w1` finite, the loop's `g`
slot holds `some` throughout: the 0-based loop index `i` satisfies
`i + fuel = max_iter`, so inside the body `i ≤ max_iter - 1` and the
Python comparison `i == max_iter` guarding the sentinel assignment is
never true. -/
theorem rakeLoop_some_of_finiteW {nn kk : ℕ} (expf : ℚ → FP)
    (pinvf : (Fin kk → Fin kk → FP) → (Fin kk → Fin kk → FP))
    (Xs : Fin nn → Fin kk → FP) (d : Fin nn → FP) (total : Fin kk → FP) :
    ∀ (fuel i : ℕ) (lam : Fin kk → FP) (w1 : Fin nn → FP)
      (g : Option (Fin nn → FP)),
      i + fuel = RAKE_MAX_ITER → g.isSome = true →
      rakeLoopFiniteW expf pinvf Xs d total fuel lam w1 = true →
      (rakeLoop expf pinvf Xs d total fuel i lam w1 g).isSome = true := by
  intro fuel
  induction fuel with
  | zero =>
      intro i lam w1 g _ hg _
      simpa [rakeLoop] using hg
  | succ fuel ih =>
      intro i lam w1 g hif hg hfin
      simp only [rakeLoop]
      simp only [rakeLoopFiniteW] at hfin
      by_cases h1 : anyNanInf nn (rakeStep expf pinvf Xs d total lam w1).2 = true
      · rw [if_pos h1] at hfin
        exact absurd hfin (by simp)
      · rw [if_neg h1] at hfin ⊢
        by_cases h2 : fpLtB (rakeResid Xs (rakeStep expf pinvf Xs d total lam w1).2
            total) (.fin RAKE_EPS1) = true
        · rw [if_pos h2]
          exact hg
        · rw [if_neg h2] at hfin ⊢
          have hi : ¬ i = RAKE_MAX_ITER := by
            rw [RAKE_MAX_ITER] at hif ⊢
            omega
          rw [if_neg hi]
          exact ih (i + 1) _ _ _ (by omega) (by simp) hfin

/-- Claim C4 (code bug, supporting theorem): `rake` can return the
"no adjustment" sentinel only through the NaN/Inf abort.  Whenever every
iteration's `w1` stays finite — in particular when the 10-iteration cap
runs out without the relative residual dropping below `1e-8` — `rake`
returns a numeric `g` (the last iterate's `w1 / d`), because the sentinel
branch `if i == max_iter` inside `for i in range(max_iter)` compares the
0-based index, which is at most 9, against 10 and is dead code.  The R
original, looping `for (l in 1:max_iter)`, does reach its counterpart of
that branch. -/
theorem rake_numeric_when_w_finite {nn kk : ℕ} (expf : ℚ → FP)
    (pinvf : (Fin kk → Fin kk → FP) → (Fin kk → Fin kk → FP))
    (Xs : Fin nn → Fin kk → FP) (d : Fin nn → FP) (total : Fin kk → FP)
    (h : rakeFiniteW expf pinvf Xs d total = true) :
    ∃ g, rake expf pinvf Xs d total = some g := by
  have hs := rakeLoop_some_of_finiteW expf pinvf Xs d total RAKE_MAX_ITER 0
    (fun _ => .fin 0) (rakeNewW expf Xs d fun _ => .fin 0)
    (some fun _ => .fin 1) (by simp) (by simp) h
  rw [rake]
  exact Option.isSome_iff_exists.mp hs

unseal Rat.add Rat.mul Rat.inv Rat.sub in
/-- Claim C4 (witness): the finite-`w1` path evaluated on the unit
problem, where `rake` converges immediately and returns a numeric `g`. -/
theorem rake_numeric_when_w_finite_witness :
    rakeFiniteW expQ pinv1 oneM oneV oneV = true ∧
    ∃ g, rake expQ pinv1 oneM oneV oneV = some g :=
  ⟨by decide, rake_numeric_when_w_finite expQ pinv1 oneM oneV oneV (by decide)⟩

/-- Inverting a successful sweep: the area phase succeeded and the new
state is exactly the renormalization/metric bundle with the counter
advanced by one. -/
theorem sweep_ok_shape {n m k : ℕ}
    (gfn : Fin m → (Fin n → FP) → Option (Fin n → FP)) (wh : Fin n → FP)
    (xmat : Fin n → Fin k → FP) (targets : Fin m → Fin k → FP)
    (mask : Fin m → Fin k → Bool) (s s2 : QState n m)
    (h : sweep gfn wh xmat targets mask s = .ok s2) :
    ∃ Qp, areaPhase gfn s.Q = .ok Qp ∧
      s2 = { Q := renormalize Qp, Qpre := Qp, mw := weightMetric Qp,
             mt := targetMetric mask wh xmat targets (renormalize Qp),
             iter := s.iter + 1 } := by
  unfold sweep at h
  cases hap : areaPhase gfn s.Q with
  | error e => rw [hap] at h; exact absurd h (by simp)
  | ok Qp =>
      rw [hap] at h
      cases h
      exact ⟨Qp, rfl, rfl⟩

/-- The loop's `.ok` exits: the counter grows by at most the fuel, and
the exit is either a metric exit (`metricsUnconverged = false`) or an
exact fuel exhaustion. -/
theorem qrakeLoop_ok_bounds {n m k : ℕ}
    (gfn : Fin m → (Fin n → FP) → Option (Fin n → FP)) (wh : Fin n → FP)
    (xmat : Fin n → Fin k → FP) (targets : Fin m → Fin k → FP)
    (mask : Fin m → Fin k → Bool) :
    ∀ (fuel : ℕ) (s s2 : QState n m),
      qrakeLoop gfn wh xmat targets mask fuel s = .ok s2 →
      s2.iter ≤ s.iter + fuel ∧
        (metricsUnconverged s2 = false ∨ s2.iter = s.iter + fuel) := by
  intro fuel
  induction fuel with
  | zero =>
      intro s s2 h
      simp only [qrakeLoop] at h
      cases h
      exact ⟨Nat.le_refl _, Or.inr rfl⟩
  | succ fuel ih =>
      intro s s2 h
      simp only [qrakeLoop] at h
      by_cases hc : metricsUnconverged s = true
      · rw [if_pos hc] at h
        cases hsw : sweep gfn wh xmat targets mask s with
        | error e => rw [hsw] at h; exact absurd h (by simp)
        | ok s1 =>
            rw [hsw] at h
            obtain ⟨Qp, _, hshape⟩ := sweep_ok_shape gfn wh xmat targets mask s s1 hsw
            have hiter : s1.iter = s.iter + 1 := by rw [hshape]
            obtain ⟨h1, h2⟩ := ih s1 s2 h
            constructor
            · omega
            · rcases h2 with h2 | h2
              · exact Or.inl h2
              · exact Or.inr (by omega)
      · rw [if_neg hc] at h
        cases h
        exact ⟨Nat.le_add_right _ _, Or.inl (by simpa using hc)⟩

/-- Claim C8 (amended): for every input, `qrake` performs at most
`maxiter` outer sweeps (on a successful run the final 1-based counter is
at most `maxiter + 1`); the default iteration cap is `maxiter = 200`
for the raking *and* the convex method alike; and an exhausted budget is
only reported — the loop with no remaining budget hands back the current
best-effort state instead of raising. -/
theorem qrake_iteration_cap {n m k : ℕ}
    (gfn : Fin m → (Fin n → FP) → Option (Fin n → FP)) (wh : Fin n → FP)
    (xmat : Fin n → Fin k → FP) (targets : Fin m → Fin k → FP)
    (drops : Option (List (ℕ × List ℕ))) (maxiter : ℕ)
    (Q0 : Fin n → Fin m → FP) (s : QState n m)
    (h : qrake gfn wh xmat targets drops maxiter Q0 = .ok s) :
    s.iter ≤ maxiter + 1 ∧ qrakeDefaultMaxiter = 200 ∧
    ∀ s0 : QState n m,
      qrakeLoop gfn wh xmat targets (get_mask m k drops) 0 s0 = .ok s0 := by
  refine ⟨?_, rfl, fun s0 => rfl⟩
  have := (qrakeLoop_ok_bounds gfn wh xmat targets (get_mask m k drops)
    maxiter _ s h).1
  simpa [Nat.add_comm] using this

unseal Rat.add Rat.mul Rat.inv Rat.sub in
/-- Claim C8 (witness): the iteration cap evaluated on the unit problem
(which exits after one sweep with `iter = 2 ≤ 10 + 1`). -/
theorem qrake_iteration_cap_witness :
    qrake gfnRake1 oneV oneM oneM none 10 oneM = .ok qcW ∧
    (qcW.iter ≤ 10 + 1 ∧ qrakeDefaultMaxiter = 200 ∧
      ∀ s0 : QState 1 1,
        qrakeLoop gfnRake1 oneV oneM oneM (get_mask 1 1 none) 0 s0 = .ok s0) :=
  ⟨by decide, qrake_iteration_cap gfnRake1 oneV oneM oneM none 10 oneM qcW (by decide)⟩

/-- The loop condition is initially unconverged: both metrics start at the
`1e9` sentinels. -/
theorem metricsUnconverged_init {n m : ℕ} (Q0 : Fin n → Fin m → FP) (it : ℕ) :
    metricsUnconverged
      { Q := Q0, Qpre := Q0, mw := .fin 1000000000, mt := .fin 1000000000,
        iter := it : QState n m } = true := by
  simp only [metricsUnconverged, fpGtB, fpLtB, TOL_WTDIFF, TOL_TARGPCTDIFF,
    Bool.or_eq_true, decide_eq_true_eq]
  left
  norm_num

/-- With finite metric values, the metric half of the loop condition is
false exactly when both metrics are within their tolerances — the
De Morgan reading of
`not ((mw > TOL_WTDIFF) or (mt > TOL_TARGPCTDIFF))`. -/
theorem metricsUnconverged_fin_iff {n m : ℕ} (s : QState n m) (a b : ℚ)
    (ha : s.mw = .fin a) (hb : s.mt = .fin b) :
    metricsUnconverged s = false ↔ (a ≤ TOL_WTDIFF ∧ b ≤ TOL_TARGPCTDIFF) := by
  simp [metricsUnconverged, fpGtB, fpLtB, ha, hb, not_lt]

/-- The loop preserves well-formedness of the state: the stored metrics
and matrix are the ones computed from the last sweep's pre-renormalization
matrix. -/
theorem qrakeLoop_ok_well_formed {n m k : ℕ}
    (gfn : Fin m → (Fin n → FP) → Option (Fin n → FP)) (wh : Fin n → FP)
    (xmat : Fin n → Fin k → FP) (targets : Fin m → Fin k → FP)
    (mask : Fin m → Fin k → Bool) :
    ∀ (fuel : ℕ) (s s2 : QState n m),
      (s.mw = weightMetric s.Qpre ∧
        s.mt = targetMetric mask wh xmat targets (renormalize s.Qpre) ∧
        s.Q = renormalize s.Qpre) →
      qrakeLoop gfn wh xmat targets mask fuel s = .ok s2 →
      (s2.mw = weightMetric s2.Qpre ∧
        s2.mt = targetMetric mask wh xmat targets (renormalize s2.Qpre) ∧
        s2.Q = renormalize s2.Qpre) := by
  intro fuel
  induction fuel with
  | zero =>
      intro s s2 hwf h
      simp only [qrakeLoop] at h
      cases h
      exact hwf
  | succ fuel ih =>
      intro s s2 hwf h
      simp only [qrakeLoop] at h
      by_cases hc : metricsUnconverged s = true
      · rw [if_pos hc] at h
        cases hsw : sweep gfn wh xmat targets mask s with
        | error e => rw [hsw] at h; exact absurd h (by simp)
        | ok s1 =>
            rw [hsw] at h
            obtain ⟨Qp, _, hshape⟩ := sweep_ok_shape gfn wh xmat targets mask s s1 hsw
            refine ih s1 s2 ?_ h
            rw [hshape]
            exact ⟨rfl, rfl, rfl⟩
      · rw [if_neg hc] at h
        cases h
        exact hwf

set_option maxRecDepth 8000 in
unseal Rat.add Rat.mul Rat.inv Rat.sub in
/-- Claim C2 (counterexample): on the unit problem the first sweep drives
both metrics to exactly 0, within both tolerances, yet a run with
`maxiter = 1` exits with `iter = 2 > maxiter` — the state the post-loop
report of line 346 classifies as "Maximum number of iterations exceeded",
not as the converged exit — refuting "reaches its converged exit exactly
when both metrics are within tolerance". -/
theorem qrake_converged_exit_counterexample :
    (qrake gfnRake1 oneV oneM oneM none 1 oneM).map
        (fun s => (s.iter, s.mw, s.mt, metricsUnconverged s)) =
      .ok (2, FP.fin 0, FP.fin 0, false) := by decide

/-- Any successful `qrake` run with at least one permitted sweep exits in
a well-formed state: the stored metrics and matrix come from the last
sweep. -/
theorem qrake_ok_well_formed {n m k : ℕ}
    (gfn : Fin m → (Fin n → FP) → Option (Fin n → FP)) (wh : Fin n → FP)
    (xmat : Fin n → Fin k → FP) (targets : Fin m → Fin k → FP)
    (drops : Option (List (ℕ × List ℕ))) (maxiter : ℕ)
    (Q0 : Fin n → Fin m → FP) (s : QState n m)
    (hmax : 1 ≤ maxiter)
    (h : qrake gfn wh xmat targets drops maxiter Q0 = .ok s) :
    s.mw = weightMetric s.Qpre ∧
    s.mt = targetMetric (get_mask m k drops) wh xmat targets
      (renormalize s.Qpre) ∧
    s.Q = renormalize s.Qpre := by
  obtain ⟨f, rfl⟩ : ∃ f, maxiter = f + 1 :=
    ⟨maxiter - 1, by omega⟩
  unfold qrake at h
  simp only [qrakeLoop] at h
  rw [if_pos (metricsUnconverged_init Q0 1)] at h
  cases hsw : sweep gfn wh xmat targets (get_mask m k drops)
      { Q := Q0, Qpre := Q0, mw := .fin 1000000000, mt := .fin 1000000000,
        iter := 1 } with
  | error e => rw [hsw] at h; exact absurd h (by simp)
  | ok s1 =>
      rw [hsw] at h
      obtain ⟨Qp, _, hshape⟩ := sweep_ok_shape _ _ _ _ _ _ s1 hsw
      refine qrakeLoop_ok_well_formed gfn wh xmat targets _ f s1 s ?_ h
      rw [hshape]
      exact ⟨rfl, rfl, rfl⟩

/-- Claim C2 (amended): on every successful `qrake` run with
`maxiter ≥ 1`, the exit metrics are exactly the ones the last sweep
computed — `max_weight_absdiff` from the matrix *before* its row
renormalization (`weightMetric s.Qpre`, including the infinite-row clamp)
and `max_targ_abspctdiff` from the renormalized matrix over masked cells —
and the final matrix is that renormalization.  When both exit metrics are
finite, the metric half of the loop condition is false exactly when
`mw ≤ 0.0005` and `mt ≤ 0.1`; a metric with NaN never compares greater
and so also counts as converged.  An exit with iteration budget left
(`iter ≤ maxiter`) is precisely a metric-converged exit; the converse can
fail only in the boundary run whose metrics first pass tolerance on the
final permitted sweep, which the code reports as
`MaxIterationsExceeded`. -/
theorem qrake_convergence_criterion {n m k : ℕ}
    (gfn : Fin m → (Fin n → FP) → Option (Fin n → FP)) (wh : Fin n → FP)
    (xmat : Fin n → Fin k → FP) (targets : Fin m → Fin k → FP)
    (drops : Option (List (ℕ × List ℕ))) (maxiter : ℕ)
    (Q0 : Fin n → Fin m → FP) (s : QState n m)
    (hmax : 1 ≤ maxiter)
    (h : qrake gfn wh xmat targets drops maxiter Q0 = .ok s) :
    s.mw = weightMetric s.Qpre ∧
    s.mt = targetMetric (get_mask m k drops) wh xmat targets
      (renormalize s.Qpre) ∧
    s.Q = renormalize s.Qpre ∧
    (∀ a b : ℚ, s.mw = .fin a → s.mt = .fin b →
      (metricsUnconverged s = false ↔ (a ≤ TOL_WTDIFF ∧ b ≤ TOL_TARGPCTDIFF))) ∧
    (s.iter ≤ maxiter → metricsUnconverged s = false) := by
  have hwf := qrake_ok_well_formed gfn wh xmat targets drops maxiter Q0 s hmax h
  have hbounds := qrakeLoop_ok_bounds gfn wh xmat targets (get_mask m k drops)
    maxiter _ s h
  refine ⟨hwf.1, hwf.2.1, hwf.2.2, fun a b ha hb =>
    metricsUnconverged_fin_iff s a b ha hb, fun hle => ?_⟩
  rcases hbounds.2 with hmc | hiter
  · exact hmc
  · have h2 : s.iter = 1 + maxiter := hiter
    omega

unseal Rat.add Rat.mul Rat.inv Rat.sub in
/-- Claim C2 (witness): the exit-criterion characterization evaluated on
the unit problem with `maxiter = 10`, which exits after one sweep with
both metrics exactly 0. -/
theorem qrake_convergence_criterion_witness :
    (1 ≤ 10 ∧ qrake gfnRake1 oneV oneM oneM none 10 oneM = .ok qcW) ∧
    (qcW.mw = weightMetric qcW.Qpre ∧
      qcW.mt = targetMetric (get_mask 1 1 none) oneV oneM oneM
        (renormalize qcW.Qpre) ∧
      qcW.Q = renormalize qcW.Qpre ∧
      (∀ a b : ℚ, qcW.mw = .fin a → qcW.mt = .fin b →
        (metricsUnconverged qcW = false ↔
          (a ≤ TOL_WTDIFF ∧ b ≤ TOL_TARGPCTDIFF))) ∧
      (qcW.iter ≤ 10 → metricsUnconverged qcW = false)) :=
  ⟨⟨by norm_num, by decide⟩,
    qrake_convergence_criterion gfnRake1 oneV oneM oneM none 10 oneM qcW
      (by norm_num) (by decide)⟩

/-- The overflow threshold is positive. -/
theorem OVERFLOW_pos : (0 : ℚ) < OVERFLOW := by
  rw [OVERFLOW]
  positivity

/-- The overflow threshold exceeds one. -/
theorem one_lt_OVERFLOW : (1 : ℚ) < OVERFLOW := by
  rw [OVERFLOW]
  have h : (1 : ℕ) < 2 ^ 1024 := Nat.one_lt_two_pow (by norm_num)
  exact_mod_cast h

/-- Once the accumulator has overflowed to `+inf`, adding finite values
keeps it there. -/
theorem foldl_fpAdd_pinf (l : List ℚ) :
    (l.map FP.fin).foldl fpAdd .pinf = .pinf := by
  induction l with
  | nil => rfl
  | cons q l ih => simpa [fpAdd] using ih

/-- Folding `fpAdd` over nonnegative finite values: either the exact
rational sum comes out (and it never crossed the overflow threshold), or
the accumulator overflowed to `+inf`. -/
theorem foldl_fpAdd_fin_nonneg (l : List ℚ) :
    ∀ c : ℚ, 0 ≤ c → c < OVERFLOW → (∀ q ∈ l, 0 ≤ q) →
      ((l.map FP.fin).foldl fpAdd (.fin c) = .fin (c + l.sum) ∧
        c + l.sum < OVERFLOW) ∨
      (l.map FP.fin).foldl fpAdd (.fin c) = .pinf := by
  induction l with
  | nil =>
      intro c hc hcov _
      exact Or.inl ⟨by simp, by simpa using hcov⟩
  | cons q l ih =>
      intro c hc hcov hl
      have hq : 0 ≤ q := hl q (List.mem_cons_self q l)
      simp only [List.map_cons, List.foldl_cons, List.sum_cons]
      have hstep : fpAdd (.fin c) (.fin q) = mkFin (c + q) := rfl
      rw [hstep]
      by_cases hov : OVERFLOW ≤ c + q
      · rw [mkFin, if_pos hov]
        exact Or.inr (foldl_fpAdd_pinf l)
      · have hlt : c + q < OVERFLOW := lt_of_not_le hov
        have hfin : mkFin (c + q) = .fin (c + q) := by
          rw [mkFin, if_neg hov, if_neg]
          intro hneg
          have := OVERFLOW_pos
          linarith
        rw [hfin]
        rcases ih (c + q) (add_nonneg hc hq) hlt
            (fun r hr => hl r (List.mem_cons_of_mem q hr)) with ⟨heq, hlt2⟩ | hpinf
        · exact Or.inl ⟨by rw [heq]; ring_nf, by linarith [hlt2]⟩
        · exact Or.inr hpinf

/-- Folding `fpAdd` over nonnegative finite values whose total stays below
the overflow threshold produces exactly the rational sum. -/
theorem foldl_fpAdd_fin_of_bound (l : List ℚ) :
    ∀ c : ℚ, 0 ≤ c → (∀ q ∈ l, 0 ≤ q) → c + l.sum < OVERFLOW →
      (l.map FP.fin).foldl fpAdd (.fin c) = .fin (c + l.sum) := by
  induction l with
  | nil => intro c _ _ _; simp
  | cons q l ih =>
      intro c hc hl hbound
      have hq : 0 ≤ q := hl q (List.mem_cons_self q l)
      have hls : 0 ≤ l.sum := List.sum_nonneg fun r hr =>
        hl r (List.mem_cons_of_mem q hr)
      rw [List.sum_cons] at hbound
      simp only [List.map_cons, List.foldl_cons]
      have hstep : fpAdd (.fin c) (.fin q) = mkFin (c + q) := rfl
      have hfin : mkFin (c + q) = .fin (c + q) := by
        rw [mkFin, if_neg (by linarith), if_neg]
        intro hneg
        have := OVERFLOW_pos
        linarith
      rw [hstep, hfin, ih (c + q) (add_nonneg hc hq)
        (fun r hr => hl r (List.mem_cons_of_mem q hr)) (by linarith),
        List.sum_cons]
      ring_nf

/-- Rewriting a vector of the form `fun j => FP.fin (r j)` mapped over
`finRange` as a rational list mapped into `FP`. -/
theorem vsum_map_fin {m : ℕ} (v : Fin m → FP) (r : Fin m → ℚ)
    (hv : ∀ j, v j = .fin (r j)) :
    (List.finRange m).map v = ((List.finRange m).map r).map FP.fin := by
  rw [List.map_map]
  exact List.map_congr_left fun j _ => hv j

/-- Dividing a list elementwise and summing is summing and dividing. -/
theorem list_sum_div (l : List ℚ) (c : ℚ) :
    (l.map fun q => q / c).sum = l.sum / c := by
  induction l with
  | nil => simp
  | cons q l ih => simp [ih, add_div]

set_option maxRecDepth 8000 in
unseal Rat.add Rat.mul Rat.inv Rat.sub in
/-- Claim C3 (counterexample): a completed `qrake` run through the
infinite-coefficients case of lines 314-318 — the share `1e300` rescaled
by the valid finite adjustment `1e300` overflows to `+inf`, the clamp of
line 317 keeps the loop running normally, and renormalization divides
`inf / inf` — returns after its first sweep (`iter = 2`) a matrix whose
row sum is NaN, so `|Σ_j Q[i,j] − 1| < 1e-9` is *false* for a completed
sweep's matrix and for the final returned `Q`: the unconditional row-sum
bound does not hold. -/
theorem qrake_rowsum_counterexample :
    (qrake gfnBig oneV oneM oneM none 10 QbigM).map
        (fun s => (s.iter, rowSumFP s.Q 0,
          fpLtB (fpAbs (fpSub (rowSumFP s.Q 0) (.fin 1)))
            (.fin (1 / 1000000000)))) =
      .ok (2, FP.nan, false) := by decide

/-- Claim C3 (amended): (a) a sweep's output matrix is, unconditionally,
the row renormalization of the matrix produced by the sweep's per-area
updates;
(b) the matrix a successful `qrake` run returns (with at least one
permitted sweep) is that renormalization of its own last pre-sweep
matrix; and (c) renormalizing a matrix with nonnegative finite entries
and nonzero row sums yields exact unit row sums — in particular
`|Σ_j Q[i,j] − 1| = 0 < 1e-9` for every row. -/
theorem qrake_rowsum_invariant {n m k : ℕ} :
    (∀ (gfn : Fin m → (Fin n → FP) → Option (Fin n → FP)) (wh : Fin n → FP)
        (xmat : Fin n → Fin k → FP) (targets : Fin m → Fin k → FP)
        (mask : Fin m → Fin k → Bool) (s s2 : QState n m),
        sweep gfn wh xmat targets mask s = .ok s2 →
          s2.Q = renormalize s2.Qpre) ∧
    (∀ (gfn : Fin m → (Fin n → FP) → Option (Fin n → FP)) (wh : Fin n → FP)
        (xmat : Fin n → Fin k → FP) (targets : Fin m → Fin k → FP)
        (drops : Option (List (ℕ × List ℕ))) (maxiter : ℕ)
        (Q0 : Fin n → Fin m → FP) (s : QState n m), 1 ≤ maxiter →
        qrake gfn wh xmat targets drops maxiter Q0 = .ok s →
          s.Q = renormalize s.Qpre) ∧
    (∀ (M : Fin n → Fin m → FP) (R : Fin n → Fin m → ℚ) (S : Fin n → ℚ),
        (∀ i j, M i j = .fin (R i j)) → (∀ i j, 0 ≤ R i j) →
        (∀ i, rowSumFP M i = .fin (S i)) → (∀ i, ¬ S i = 0) →
        ∀ i, rowSumFP (renormalize M) i = .fin 1 ∧
          fpLtB (fpAbs (fpSub (rowSumFP (renormalize M) i) (.fin 1)))
            (.fin (1 / 1000000000)) = true) := by
  refine ⟨?_, ?_, ?_⟩
  · intro gfn wh xmat targets mask s s2 h
    obtain ⟨Qp, _, hshape⟩ := sweep_ok_shape gfn wh xmat targets mask s s2 h
    rw [hshape]
  · intro gfn wh xmat targets drops maxiter Q0 s hmax h
    exact (qrake_ok_well_formed gfn wh xmat targets drops maxiter Q0 s hmax h).2.2
  · intro M R S hM hR hS hSnz i
    -- identify the row sum S i with the rational list sum of row i
    have hrow : rowSumFP M i =
        (((List.finRange m).map (R i)).map FP.fin).foldl fpAdd (.fin 0) := by
      rw [rowSumFP, vsum, vsum_map_fin (M i) (R i) (fun j => hM i j)]
    have hnn : ∀ q ∈ (List.finRange m).map (R i), 0 ≤ q := by
      intro q hq
      obtain ⟨j, _, rfl⟩ := List.mem_map.mp hq
      exact hR i j
    have hsum : S i = ((List.finRange m).map (R i)).sum ∧
        ((List.finRange m).map (R i)).sum < OVERFLOW := by
      have hSi := hS i
      rw [hrow] at hSi
      rcases foldl_fpAdd_fin_nonneg ((List.finRange m).map (R i)) 0 le_rfl
          OVERFLOW_pos hnn with ⟨heq, hlt⟩ | hpinf
      · rw [heq] at hSi
        constructor
        · have := (FP.fin.inj hSi).symm
          linarith
        · linarith
      · rw [hpinf] at hSi
        exact absurd hSi (by simp)
    have hSsum : S i = ((List.finRange m).map (R i)).sum := hsum.1
    have hSnn : 0 ≤ S i := by
      rw [hSsum]
      exact List.sum_nonneg hnn
    have hSpos : 0 < S i := lt_of_le_of_ne hSnn (Ne.symm (hSnz i))
    -- each entry of the row is at most the row sum
    have hle : ∀ j, R i j ≤ S i := by
      intro j
      rw [hSsum]
      exact List.single_le_sum hnn (R i j)
        (List.mem_map_of_mem (R i) (List.mem_finRange j))
    -- the renormalized row is finitely valued with entries R i j / S i
    have hren : ∀ j, renormalize M i j = .fin (R i j / S i) := by
      intro j
      rw [renormalize, hM i j, hS i]
      have hz : ¬ S i = 0 := hSnz i
      show fpDiv (.fin (R i j)) (.fin (S i)) = .fin (R i j / S i)
      rw [fpDiv]
      rw [if_neg hz, mkFin, if_neg, if_neg]
      · intro hneg
        have h1 : 0 ≤ R i j / S i := div_nonneg (hR i j) hSnn
        have := OVERFLOW_pos
        linarith
      · intro hge
        have h2 : R i j / S i ≤ 1 := (div_le_one hSpos).mpr (hle j)
        have := one_lt_OVERFLOW
        linarith
    -- the renormalized row sums exactly to one
    have hrsum : rowSumFP (renormalize M) i = .fin 1 := by
      rw [rowSumFP, vsum,
        vsum_map_fin (renormalize M i) (fun j => R i j / S i) hren]
      have hmap : (List.finRange m).map (fun j => R i j / S i) =
          ((List.finRange m).map (R i)).map fun q => q / S i := by
        rw [List.map_map]
        rfl
      rw [hmap, foldl_fpAdd_fin_of_bound]
      · rw [list_sum_div, ← hSsum, zero_add, div_self (hSnz i)]
      · exact le_rfl
      · intro q hq
        obtain ⟨r, hr, rfl⟩ := List.mem_map.mp hq
        exact div_nonneg (hnn r hr) hSnn
      · rw [list_sum_div, ← hSsum, zero_add, div_self (hSnz i)]
        exact one_lt_OVERFLOW
    refine ⟨hrsum, ?_⟩
    rw [hrsum]
    show fpLtB (fpAbs (fpAdd (.fin 1) (fpNeg (.fin 1)))) (.fin (1 / 1000000000))
      = true
    have h0 : fpAdd (.fin 1) (fpNeg (.fin 1)) = .fin 0 := by
      show mkFin (1 + -1) = .fin 0
      rw [mkFin, if_neg, if_neg]
      · norm_num
      · have := OVERFLOW_pos
        intro hc
        norm_num at hc
        linarith
      · have := OVERFLOW_pos
        intro hc
        norm_num at hc
        linarith
    rw [h0]
    show decide ((0 : ℚ) < 1 / 1000000000) = true
    norm_num

/-- Generic list fact: reading back a just-written position. -/
theorem list_getD_set_self {a : Type} (l : List a) (i : ℕ) (c d : a)
    (hi : i < l.length) : (l.set i c).getD i d = c := by
  induction l generalizing i with
  | nil => simp at hi
  | cons x l ih =>
      cases i with
      | zero => rfl
      | succ i =>
          simp only [List.set_cons_succ, List.getD_cons_succ]
          exact ih i (by simpa using hi)

/-- Generic list fact: writing one position leaves the others unchanged. -/
theorem list_getD_set_ne {a : Type} (l : List a) (i j : ℕ) (c d : a)
    (hne : ¬ j = i) : (l.set i c).getD j d = l.getD j d := by
  induction l generalizing i j with
  | nil => simp
  | cons x l ih =>
      cases i with
      | zero =>
          cases j with
          | zero => exact absurd rfl hne
          | succ j => rfl
      | succ i =>
          cases j with
          | zero => rfl
          | succ j =>
              simp only [List.set_cons_succ, List.getD_cons_succ]
              exact ih i j (fun hji => hne (by rw [hji]))

/-- Generic list fact: appending does not change in-range reads. -/
theorem list_getD_append_left {a : Type} (l tail : List a) (i : ℕ) (d : a)
    (hi : i < l.length) : (l ++ tail).getD i d = l.getD i d := by
  induction l generalizing i with
  | nil => simp at hi
  | cons x l ih =>
      cases i with
      | zero => rfl
      | succ i =>
          simp only [List.cons_append, List.getD_cons_succ]
          exact ih i (by simpa using hi)

/-- Generic list fact: reading the first appended position. -/
theorem list_getD_append_self {a : Type} (l : List a) (c d : a) :
    (l ++ [c]).getD l.length d = c := by
  induction l with
  | nil => rfl
  | cons x l ih => simp [ih]

/-- Generic list fact: rewriting a position with its own value is the
identity. -/
theorem list_set_getD_self {a : Type} (l : List a) (i : ℕ) (d : a)
    (hi : i < l.length) : l.set i (l.getD i d) = l := by
  induction l generalizing i with
  | nil => rfl
  | cons x l ih =>
      cases i with
      | zero => rfl
      | succ i =>
          simp only [List.getD_cons_succ, List.set_cons_succ]
          rw [ih i (by simpa using hi)]

/-- `hget` after an in-place write at the same id. -/
theorem hget_set_self {n m k : ℕ} (h : List (Cell n m k)) (i : ℕ)
    (c : Cell n m k) (hi : i < h.length) : hget (h.set i c) i = c :=
  list_getD_set_self h i c _ hi

/-- `hget` after an in-place write at a different id. -/
theorem hget_set_ne {n m k : ℕ} (h : List (Cell n m k)) (i j : ℕ)
    (c : Cell n m k) (hne : ¬ j = i) : hget (h.set i c) j = hget h j :=
  list_getD_set_ne h i j c _ hne

/-- `hget` below the watermark is unchanged by allocation. -/
theorem hget_append_left {n m k : ℕ} (h tail : List (Cell n m k)) (i : ℕ)
    (hi : i < h.length) : hget (h ++ tail) i = hget h i :=
  list_getD_append_left h tail i _ hi

/-- `hget` at a freshly allocated id. -/
theorem hget_append_self {n m k : ℕ} (h : List (Cell n m k))
    (c : Cell n m k) : hget (h ++ [c]) h.length = c :=
  list_getD_append_self h c _

/-- The heap-level area loop is the value-level area fold applied to the
array bound to `Q`, written back in place to the same cell. -/
theorem heapAreaLoop_eq {n m k : ℕ}
    (gfn : Fin m → (Fin n → FP) → Option (Fin n → FP)) :
    ∀ (L : List (Fin m)) (h : List (Cell n m k)) (cur : ℕ)
      (Q : Fin n → Fin m → FP), cur < h.length → hget h cur = .qmat Q →
      heapAreaLoop gfn L h cur =
        Except.map (fun Q2 => h.set cur (.qmat Q2))
          (L.foldlM (areaStep gfn) Q) := by
  intro L
  induction L with
  | nil =>
      intro h cur Q hcur hcell
      have hself : h.set cur (Cell.qmat Q) = h := by
        rw [← hcell]
        exact list_set_getD_self h cur _ hcur
      simp only [heapAreaLoop, List.foldlM_nil]
      show Except.ok h
        = Except.map (fun Q2 => h.set cur (Cell.qmat Q2)) (Except.ok Q)
      simp [Except.map, hself]
  | cons j L ih =>
      intro h cur Q hcur hcell
      simp only [heapAreaLoop, List.foldlM_cons]
      rw [show getQv (hget h cur) = Q from by rw [hcell]; rfl]
      cases hstep : areaStep gfn Q j with
      | error e => rfl
      | ok Q2 =>
          have hlen : cur < (h.set cur (.qmat Q2)).length := by
            simpa using hcur
          have hcell2 : hget (h.set cur (.qmat Q2)) cur = .qmat Q2 :=
            list_getD_set_self h cur _ _ hcur
          show heapAreaLoop gfn L (h.set cur (.qmat Q2)) cur
            = Except.map (fun Q3 => h.set cur (.qmat Q3))
                (L.foldlM (areaStep gfn) Q2)
          rw [ih (h.set cur (.qmat Q2)) cur Q2 hlen hcell2]
          have hsetset : (fun Q3 => (h.set cur (.qmat Q2)).set cur (.qmat Q3))
              = fun Q3 => h.set cur (.qmat Q3) :=
            funext fun Q3 => by simp [List.set_set]
          rw [hsetset]

/-- One heap-level sweep simulates one value-level sweep: the heap after
the sweep is the in-place area update of cell `cur` followed by the
allocation of the renormalized array, to which `Q` is rebound. -/
theorem sweepImp_sim {n m k : ℕ}
    (gfn : Fin m → (Fin n → FP) → Option (Fin n → FP)) (wh : Fin n → FP)
    (xmat : Fin n → Fin k → FP) (targets : Fin m → Fin k → FP)
    (mask : Fin m → Fin k → Bool) (s : ImpState n m k) (t : QState n m)
    (hcur : s.cur < s.heap.length) (hcell : hget s.heap s.cur = .qmat t.Q)
    (hiter : s.iter = t.iter) (s2 : ImpState n m k)
    (hrun : sweepImp gfn wh xmat targets mask s = .ok s2) :
    ∃ t2, sweep gfn wh xmat targets mask t = .ok t2 ∧
      s2.heap = (s.heap.set s.cur (.qmat t2.Qpre)) ++ [.qmat t2.Q] ∧
      s2.cur = s.heap.length ∧
      s2.mw = t2.mw ∧ s2.mt = t2.mt ∧ s2.iter = t2.iter := by
  unfold sweepImp at hrun
  rw [heapAreaLoop_eq gfn (List.finRange m) s.heap s.cur t.Q hcur hcell]
    at hrun
  unfold sweep
  cases hap : areaPhase gfn t.Q with
  | error e =>
      rw [show (List.finRange m).foldlM (areaStep gfn) t.Q = .error e from hap]
        at hrun
      exact absurd hrun (by simp [Except.map])
  | ok Qp =>
      rw [show (List.finRange m).foldlM (areaStep gfn) t.Q = .ok Qp from hap]
        at hrun
      simp only [Except.map] at hrun
      have hcell2 : hget (s.heap.set s.cur (.qmat Qp)) s.cur = .qmat Qp :=
        list_getD_set_self s.heap s.cur _ _ hcur
      rw [show getQv (hget (s.heap.set s.cur (.qmat Qp)) s.cur) = Qp from by
        rw [hcell2]; rfl] at hrun
      cases hrun
      refine ⟨_, rfl, ?_, by simp, rfl, rfl, by rw [hiter]⟩
      simp

/-- The heap-level loop simulates the value-level loop, never touches any
cell below the entry watermark `f0`, and keeps `Q` bound to a live cell
holding the value-level matrix. -/
theorem qrakeImpLoop_sim {n m k : ℕ}
    (gfn : Fin m → (Fin n → FP) → Option (Fin n → FP)) (wh : Fin n → FP)
    (xmat : Fin n → Fin k → FP) (targets : Fin m → Fin k → FP)
    (mask : Fin m → Fin k → Bool) (f0 : ℕ) :
    ∀ (fuel : ℕ) (s : ImpState n m k) (t : QState n m),
      f0 ≤ s.cur → s.cur < s.heap.length →
      hget s.heap s.cur = .qmat t.Q →
      s.mw = t.mw → s.mt = t.mt → s.iter = t.iter →
      ∀ s2, qrakeImpLoop gfn wh xmat targets mask fuel s = .ok s2 →
        (∀ id, id < f0 → hget s2.heap id = hget s.heap id) ∧
        f0 ≤ s2.cur ∧ s2.cur < s2.heap.length ∧
        ∃ t2, qrakeLoop gfn wh xmat targets mask fuel t = .ok t2 ∧
          hget s2.heap s2.cur = .qmat t2.Q ∧
          s2.mw = t2.mw ∧ s2.mt = t2.mt ∧ s2.iter = t2.iter := by
  intro fuel
  induction fuel with
  | zero =>
      intro s t hf0 hcur hcell hmw hmt hiter s2 hrun
      simp only [qrakeImpLoop] at hrun
      cases hrun
      exact ⟨fun id _ => rfl, hf0, hcur, t, rfl, hcell, hmw, hmt, hiter⟩
  | succ fuel ih =>
      intro s t hf0 hcur hcell hmw hmt hiter s2 hrun
      simp only [qrakeImpLoop] at hrun
      by_cases hc : (fpGtB s.mw (.fin TOL_WTDIFF) ||
          fpGtB s.mt (.fin TOL_TARGPCTDIFF)) = true
      · rw [if_pos hc] at hrun
        have hcpure : metricsUnconverged t = true := by
          rw [metricsUnconverged, ← hmw, ← hmt]
          exact hc
        cases hsw : sweepImp gfn wh xmat targets mask s with
        | error e => rw [hsw] at hrun; exact absurd hrun (by simp)
        | ok s1 =>
            rw [hsw] at hrun
            obtain ⟨t1, htsw, hheap, hcur1, hmw1, hmt1, hiter1⟩ :=
              sweepImp_sim gfn wh xmat targets mask s t hcur hcell hiter s1 hsw
            have hcell1 : hget s1.heap s1.cur = .qmat t1.Q := by
              rw [hheap, hcur1, ← List.length_set s.heap s.cur (.qmat t1.Qpre)]
              exact hget_append_self _ _
            have hlen1 : s1.cur < s1.heap.length := by
              rw [hheap, hcur1]
              simp
            have hf01 : f0 ≤ s1.cur := by
              rw [hcur1]
              omega
            obtain ⟨hframe, hf02, hlive2, t2, hloop2, hcell2, hmw2, hmt2, hiter2⟩ :=
              ih s1 t1 hf01 hlen1 hcell1 hmw1 hmt1 hiter1 s2 hrun
            refine ⟨?_, hf02, hlive2, t2, ?_, hcell2, hmw2, hmt2, hiter2⟩
            · intro id hid
              rw [hframe id hid, hheap]
              rw [hget_append_left _ _ id (by simp; omega)]
              exact hget_set_ne s.heap s.cur id _ (by omega)
            · simp only [qrakeLoop]
              rw [if_pos hcpure, htsw]
              exact hloop2
      · rw [if_neg hc] at hrun
        cases hrun
        refine ⟨fun id _ => rfl, hf0, hcur, t, ?_, hcell, hmw, hmt, hiter⟩
        simp only [qrakeLoop]
        rw [if_neg (by rw [metricsUnconverged, ← hmw, ← hmt]; exact hc)]

/-- Claim C10: `qrake` never modifies its caller's arrays.  In the heap
model, for caller ids below the entry watermark, every cell — the
caller's `Q` as well as `wh`, `xmat` and `targets` — is unchanged when
`qrake` returns; the returned array lives at a fresh id (at or above the
watermark, carved out by the `Q.copy()` of line 272 and the per-sweep
renormalization allocations), and it holds exactly the matrix computed by
the value-level `qrake` on the caller's values. -/
theorem qrake_frame_effect {n m k : ℕ}
    (gfn : Fin m → (Fin n → FP) → Option (Fin n → FP))
    (drops : Option (List (ℕ × List ℕ))) (maxiter : ℕ)
    (qId whId xmatId targetsId : ℕ) (h0 : List (Cell n m k))
    (s2 : ImpState n m k)
    (hrun : qrakeImp gfn drops maxiter qId whId xmatId targetsId h0 = .ok s2) :
    (∀ id, id < h0.length → hget s2.heap id = hget h0 id) ∧
    h0.length ≤ s2.cur ∧
    ∃ t : QState n m,
      qrake gfn (getWv (hget h0 whId)) (getCv (hget h0 xmatId))
        (getTv (hget h0 targetsId)) drops maxiter (getQv (hget h0 qId))
        = .ok t ∧
      hget s2.heap s2.cur = .qmat t.Q ∧ s2.iter = t.iter := by
  unfold qrakeImp at hrun
  obtain ⟨hframe, hf0, hlive, t, hloop, hcell, hmw, hmt, hiter⟩ :=
    qrakeImpLoop_sim gfn (getWv (hget h0 whId)) (getCv (hget h0 xmatId))
      (getTv (hget h0 targetsId)) (get_mask m k drops) h0.length maxiter
      { heap := h0 ++ [.qmat (getQv (hget h0 qId))], cur := h0.length,
        mw := .fin 1000000000, mt := .fin 1000000000, iter := 1 }
      { Q := getQv (hget h0 qId), Qpre := getQv (hget h0 qId),
        mw := .fin 1000000000, mt := .fin 1000000000, iter := 1 }
      (Nat.le_refl _) (by simp) (hget_append_self _ _) rfl rfl rfl
      s2 hrun
  refine ⟨?_, hf0, t, hloop, hcell, hiter⟩
  intro id hid
  rw [hframe id hid]
  exact hget_append_left _ _ id hid

set_option maxRecDepth 8000 in
unseal Rat.add Rat.mul Rat.inv Rat.sub in
/-- Claim C10 (witness): the frame property evaluated on the unit problem
heap `h0c` — the run returns `s2c`, which leaves ids 0–3 untouched and
holds the value-level result at the fresh id 5. -/
theorem qrake_frame_effect_witness :
    qrakeImp gfnRake1 none 10 0 1 2 3 h0c = .ok s2c ∧
    ((∀ id, id < h0c.length → hget s2c.heap id = hget h0c id) ∧
      h0c.length ≤ s2c.cur ∧
      ∃ t : QState 1 1,
        qrake gfnRake1 (getWv (hget h0c 1)) (getCv (hget h0c 2))
          (getTv (hget h0c 3)) none 10 (getQv (hget h0c 0)) = .ok t ∧
        hget s2c.heap s2c.cur = .qmat t.Q ∧ s2c.iter = t.iter) :=
  ⟨by decide,
    qrake_frame_effect gfnRake1 none 10 0 1 2 3 h0c s2c (by decide)⟩

unseal Rat.add Rat.mul Rat.inv Rat.sub in
/-- Claim C3 (witness): the renormalization row-sum property evaluated on
the all-ones 1 x 1 matrix. -/
theorem qrake_rowsum_invariant_witness :
    ((∀ i j, oneM i j = FP.fin 1) ∧ (∀ i : Fin 1, rowSumFP oneM i = .fin 1) ∧
      ¬ (1 : ℚ) = 0) ∧
    (rowSumFP (renormalize oneM) 0 = .fin 1 ∧
      fpLtB (fpAbs (fpSub (rowSumFP (renormalize oneM) 0) (.fin 1)))
        (.fin (1 / 1000000000)) = true) :=
  ⟨⟨by decide, by decide, by norm_num⟩,
    (qrake_rowsum_invariant (k := 1)).2.2 oneM (fun _ _ => 1) (fun _ => 1)
      (by decide) (by decide) (by decide) (by decide) 0⟩

end QW

